import Mathlib

/-!
Verification development for the cfra context-free-reachability engines.

The C++ sources are shallowly embedded below:

* a cuBool sparse boolean matrix is modelled as a `Finset (Nat × Nat)` of its
  TRUE coordinates (the dimension is carried separately where the code needs it);
* a `std::map` keyed by label strings is modelled as an association list sorted
  by key (`std::map` iterates its entries in key order);
* every engine (`matrix_base_algo`, `IncrementalMatrixAlgo`,
  `FullyOptimizedAlgo`, `OptimizedExtendedCNFAlgo`) is translated statement by
  statement from its header, with iteration caps realised as explicit fuel;
* stateful C++ (the heap of cuBool handles that `matrix_base_algo::solve` of
  the second header version mutates) is modelled by an explicit handle heap.
-/

namespace Cfra

/-- Labels: the C++ code keys grammars, graphs and matrix maps by
`std::string`. -/
abbrev Lab := String

/-- Sparse boolean matrix (cuBool_Matrix): the set of TRUE coordinates.
`nvals` is `Finset.card`, `ewiseadd` is `∪`, `duplicate` is the identity. -/
abbrev Mat := Finset (Nat × Nat)

/-- Boolean matrix product `cuBool_MxM`: `(A·B)[i,j] = ∃ k, A[i,k] ∧ B[k,j]`. -/
def mxm (A B : Mat) : Mat :=
  ((A ×ˢ B).filter (fun pq => pq.1.2 = pq.2.1)).image (fun pq => (pq.1.1, pq.2.2))

/-- The identity matrix built by the epsilon-rule initialisation loops
(diagonal pairs `(i, i)` for `i < n`). -/
def identityMat (n : Nat) : Mat := (Finset.range n).image (fun i => (i, i))

theorem mem_mxm {A B : Mat} {p : Nat × Nat} :
    p ∈ mxm A B ↔ ∃ k, (p.1, k) ∈ A ∧ (k, p.2) ∈ B := by
  constructor
  · intro hp
    rcases Finset.mem_image.mp hp with ⟨pq, hpq, hEq⟩
    rcases Finset.mem_filter.mp hpq with ⟨hmem, hk⟩
    rcases Finset.mem_product.mp hmem with ⟨h1, h2⟩
    refine ⟨pq.1.2, ?_, ?_⟩
    · simpa [← hEq] using h1
    · rw [← hEq]
      simpa [hk] using h2
  · rintro ⟨k, h1, h2⟩
    refine Finset.mem_image.mpr ⟨((p.1, k), (k, p.2)), ?_, rfl⟩
    exact Finset.mem_filter.mpr ⟨Finset.mem_product.mpr ⟨h1, h2⟩, rfl⟩

theorem mxm_empty_left (B : Mat) : mxm ∅ B = ∅ := by
  ext p
  simp [mem_mxm]

theorem mxm_empty_right (A : Mat) : mxm A ∅ = ∅ := by
  ext p
  simp [mem_mxm]

/-! ### Sorted association lists (the shallow model of std::map) -/

/-- Lexicographic strict order on character lists by code point, the order
`std::map<std::string, _>` keeps its keys in. -/
def labLtB : List Char → List Char → Bool
  | [], [] => false
  | [], _ :: _ => true
  | _ :: _, [] => false
  | a :: as, b :: bs =>
      if a.toNat < b.toNat then true
      else if b.toNat < a.toNat then false
      else labLtB as bs

/-- Strict order on labels. -/
def labLt (a b : Lab) : Bool := labLtB a.data b.data

theorem labLtB_irrefl : ∀ (a : List Char), labLtB a a = false
  | [] => rfl
  | _ :: as => by simp [labLtB, labLtB_irrefl as]

theorem labLtB_trans : ∀ {a b c : List Char},
    labLtB a b = true → labLtB b c = true → labLtB a c = true
  | [], [], _, h1, _ => by simp [labLtB] at h1
  | [], _ :: _, [], _, h2 => by simp [labLtB] at h2
  | [], _ :: _, _ :: _, _, _ => rfl
  | _ :: _, [], _, h1, _ => by simp [labLtB] at h1
  | _ :: _, _ :: _, [], _, h2 => by simp [labLtB] at h2
  | a :: as, b :: bs, c :: cs, h1, h2 => by
      simp only [labLtB] at h1 h2 ⊢
      by_cases hab : a.toNat < b.toNat
      · by_cases hbc : b.toNat < c.toNat
        · simp [Nat.lt_trans hab hbc]
        · simp only [if_pos hab] at h1
          by_cases hcb : c.toNat < b.toNat
          · simp [hbc, hcb] at h2
          · have hbc2 : b.toNat = c.toNat := by omega
            simp [hbc2 ▸ hab]
      · by_cases hba : b.toNat < a.toNat
        · simp [hab, hba] at h1
        · have hab2 : a.toNat = b.toNat := by omega
          simp only [if_neg hab, if_neg hba] at h1
          by_cases hbc : b.toNat < c.toNat
          · simp [hab2 ▸ hbc]
          · by_cases hcb : c.toNat < b.toNat
            · simp [hbc, hcb] at h2
            · simp only [if_neg hbc, if_neg hcb] at h2
              have h3 : ¬ a.toNat < c.toNat → ¬ c.toNat < a.toNat → labLtB as cs = true := by
                intro _ _
                exact labLtB_trans h1 h2
              by_cases hac : a.toNat < c.toNat
              · simp [hac]
              · have hca : ¬ c.toNat < a.toNat := by omega
                simp [hac, hca, h3 hac hca]

theorem labLtB_connex : ∀ {a b : List Char},
    labLtB a b = false → labLtB b a = false → a = b
  | [], [], _, _ => rfl
  | [], _ :: _, h1, _ => by simp [labLtB] at h1
  | _ :: _, [], _, h2 => by simp [labLtB] at h2
  | a :: as, b :: bs, h1, h2 => by
      simp only [labLtB] at h1 h2
      by_cases hab : a.toNat < b.toNat
      · simp [hab] at h1
      · by_cases hba : b.toNat < a.toNat
        · simp [hab, hba] at h2
        · have hv : a = b := by
            have hn : a.toNat = b.toNat :=
              Nat.le_antisymm (Nat.not_lt.mp hba) (Nat.not_lt.mp hab)
            exact Char.eq_of_val_eq (UInt32.toNat.inj hn)
          simp only [if_neg hab, if_neg hba] at h1 h2
          rw [hv, labLtB_connex h1 h2]

theorem labLt_irrefl (a : Lab) : labLt a a = false := labLtB_irrefl a.data

theorem labLt_trans {a b c : Lab} (h1 : labLt a b = true) (h2 : labLt b c = true) :
    labLt a c = true := labLtB_trans h1 h2

theorem labLt_connex {a b : Lab} (h1 : labLt a b = false) (h2 : labLt b a = false) :
    a = b := by
  have hd : a.data = b.data := labLtB_connex h1 h2
  cases a
  cases b
  simp only at hd
  rw [hd]

theorem labLt_ne {a b : Lab} (h : labLt a b = true) : a ≠ b := by
  intro he
  rw [he, labLt_irrefl] at h
  exact Bool.false_ne_true h

/-- Association list keyed by labels; engine states keep it sorted by key,
mirroring the iteration order of `std::map`. -/
abbrev SAL (α : Type) := List (Lab × α)

/-- Lookup (std::map::find). -/
def mget {α : Type} : SAL α → Lab → Option α
  | [], _ => none
  | kv :: t, x => if x = kv.1 then some kv.2 else mget t x

/-- Lookup with a default value. -/
def mgetD {α : Type} (m : SAL α) (k : Lab) (d : α) : α := (mget m k).getD d

/-- Insert-or-replace preserving key order (std::map insertion). -/
def mset {α : Type} : SAL α → Lab → α → SAL α
  | [], k, v => [(k, v)]
  | kv :: t, k, v =>
      if labLt k kv.1 then (k, v) :: kv :: t
      else if k = kv.1 then (k, v) :: t
      else kv :: mset t k v

/-- Keys are strictly increasing, hence also pairwise distinct. -/
def SALSorted {α : Type} (m : SAL α) : Prop :=
  m.Pairwise (fun a b => labLt a.1 b.1 = true)

theorem mget_mset_self {α : Type} (m : SAL α) (k : Lab) (v : α) :
    mget (mset m k v) k = some v := by
  induction m with
  | nil => simp [mset, mget]
  | cons kv t ih =>
      by_cases h1 : labLt k kv.1
      · simp [mset, h1, mget]
      · by_cases h2 : k = kv.1
        · simp [mset, h1, h2, mget, labLt_irrefl]
        · simp [mset, h1, h2, mget, ih]

theorem mget_mset_ne {α : Type} (m : SAL α) (k k' : Lab) (v : α) (hne : k' ≠ k) :
    mget (mset m k v) k' = mget m k' := by
  induction m with
  | nil => simp [mset, mget, hne]
  | cons kv t ih =>
      by_cases h1 : labLt k kv.1
      · simp [mset, h1, mget, hne]
      · by_cases h2 : k = kv.1
        · subst h2
          simp [mset, h1, mget, hne, labLt_irrefl]
        · by_cases h3 : k' = kv.1
          · simp [mset, h1, h2, mget, h3]
          · simp [mset, h1, h2, mget, h3, ih]

theorem mget_eq_none_of_lt {α : Type} (m : SAL α) (k : Lab)
    (hk : ∀ kv ∈ m, labLt k kv.1 = true) : mget m k = none := by
  induction m with
  | nil => rfl
  | cons kv t ih =>
      have hlt : labLt k kv.1 = true := hk kv (List.mem_cons_self _ _)
      have hne : k ≠ kv.1 := labLt_ne hlt
      simp only [mget, hne, if_false]
      exact ih (fun kv2 h2 => hk kv2 (List.mem_cons_of_mem _ h2))

theorem mem_mset {α : Type} {m : SAL α} {k : Lab} {v : α} {kv2 : Lab × α}
    (h : kv2 ∈ mset m k v) : kv2 = (k, v) ∨ kv2 ∈ m := by
  induction m with
  | nil => simpa [mset] using h
  | cons kv t ih =>
      by_cases h1 : labLt k kv.1
      · simp only [mset, if_pos h1, List.mem_cons] at h
        rcases h with h | h | h
        · exact Or.inl h
        · exact Or.inr (List.mem_cons.mpr (Or.inl h))
        · exact Or.inr (List.mem_cons.mpr (Or.inr h))
      · by_cases h2 : k = kv.1
        · simp only [mset, if_neg h1, if_pos h2, List.mem_cons] at h
          rcases h with h | h
          · exact Or.inl h
          · exact Or.inr (List.mem_cons.mpr (Or.inr h))
        · simp only [mset, if_neg h1, if_neg h2, List.mem_cons] at h
          rcases h with h | h
          · exact Or.inr (List.mem_cons.mpr (Or.inl h))
          · rcases ih h with h | h
            · exact Or.inl h
            · exact Or.inr (List.mem_cons.mpr (Or.inr h))

theorem SALSorted.mset {α : Type} {m : SAL α} (hs : SALSorted m) (k : Lab) (v : α) :
    SALSorted (Cfra.mset m k v) := by
  induction m with
  | nil => simp [Cfra.mset, SALSorted]
  | cons kv t ih =>
      rcases List.pairwise_cons.mp hs with ⟨hhead, htail⟩
      by_cases h1 : labLt k kv.1
      · simp only [Cfra.mset, if_pos h1]
        refine List.pairwise_cons.mpr ⟨?_, hs⟩
        intro kv2 h2
        rcases List.mem_cons.mp h2 with h2 | h2
        · simpa [h2] using h1
        · exact labLt_trans h1 (hhead kv2 h2)
      · by_cases h2 : k = kv.1
        · subst h2
          simp only [Cfra.mset, if_neg h1, if_pos rfl]
          exact List.pairwise_cons.mpr ⟨hhead, htail⟩
        · have hgt : labLt kv.1 k = true := by
            rcases hv : labLt kv.1 k with _ | _
            · exact absurd (labLt_connex (Bool.of_not_eq_true h1) hv) h2
            · rfl
          simp only [Cfra.mset, if_neg h1, if_neg h2]
          refine List.pairwise_cons.mpr ⟨?_, ih htail⟩
          intro kv2 hmem
          rcases mem_mset hmem with h | h
          · simpa [h] using hgt
          · exact hhead kv2 h

theorem SALSorted.nil {α : Type} : SALSorted ([] : SAL α) := List.Pairwise.nil

/-- Two sorted association lists with the same lookup function are equal. -/
theorem SAL.ext {α : Type} : ∀ {a b : SAL α}, SALSorted a → SALSorted b →
    (∀ k, mget a k = mget b k) → a = b
  | [], [], _, _, _ => rfl
  | [], kv :: t, _, _, h => by
      have := h kv.1
      simp [mget] at this
  | kv :: t, [], _, _, h => by
      have := h kv.1
      simp [mget] at this
  | kv :: t, kv2 :: t2, ha, hb, h => by
      rcases List.pairwise_cons.mp ha with ⟨hhead, htail⟩
      rcases List.pairwise_cons.mp hb with ⟨hhead2, htail2⟩
      have hkey : kv.1 = kv2.1 := by
        by_contra hne
        have htri : labLt kv.1 kv2.1 = true ∨ labLt kv2.1 kv.1 = true := by
          rcases hv1 : labLt kv.1 kv2.1 with _ | _
          · rcases hv2 : labLt kv2.1 kv.1 with _ | _
            · exact absurd (labLt_connex hv1 hv2) hne
            · exact Or.inr rfl
          · exact Or.inl rfl
        rcases htri with hlt | hgt
        · have h1 := h kv.1
          have h2 : mget (kv2 :: t2) kv.1 = none := by
            refine mget_eq_none_of_lt _ _ ?_
            intro kv3 h3
            rcases List.mem_cons.mp h3 with h3 | h3
            · simpa [h3] using hlt
            · exact labLt_trans hlt (hhead2 kv3 h3)
          rw [h2] at h1
          simp [mget] at h1
        · have h1 := h kv2.1
          have h2 : mget (kv :: t) kv2.1 = none := by
            refine mget_eq_none_of_lt _ _ ?_
            intro kv3 h3
            rcases List.mem_cons.mp h3 with h3 | h3
            · simpa [h3] using hgt
            · exact labLt_trans hgt (hhead kv3 h3)
          rw [h2] at h1
          simp [mget] at h1
      have hval : kv.2 = kv2.2 := by
        have h1 := h kv.1
        simp [mget, hkey] at h1
        exact h1
      have htl : t = t2 := by
        refine SAL.ext htail htail2 ?_
        intro x
        by_cases hk : x = kv.1
        · subst hk
          have hn1 : mget t kv.1 = none := by
            refine mget_eq_none_of_lt _ _ ?_
            intro kv3 h3
            exact hhead kv3 h3
          have hn2 : mget t2 kv.1 = none := by
            refine mget_eq_none_of_lt _ _ ?_
            intro kv3 h3
            exact hkey ▸ hhead2 kv3 h3
          rw [hn1, hn2]
        · have hk2 : x ≠ kv2.1 := by
            rw [← hkey]
            exact hk
          have hx := h x
          simpa [mget, hk, hk2] using hx
      calc kv :: t = (kv.1, kv.2) :: t := rfl
        _ = (kv2.1, kv2.2) :: t2 := by rw [hkey, hval, htl]
        _ = kv2 :: t2 := rfl

/-! ### Grammar (src/src/cnf_grammar/cnf_grammar.hpp) -/

/-- The `cnf_grammar` class: start nonterminal, the two symbol sets filled by
the file parser, and the three rule lists. -/
structure cnf_grammar where
  start_nonterm : Lab
  non_terminals : Finset Lab
  terminals : Finset Lab
  epsilon_rules : List Lab
  simple_rules : List (Lab × Lab)
  complex_rules : List (Lab × Lab × Lab)

/-- The copy constructor `cnf_grammar(const cnf_grammar&)` at
cnf_grammar.hpp lines 49-53: it initialises `start_nonterm_`,
`epsilon_rules_`, `simple_rules_` and `complex_rules_` from the source but
never mentions `non_terminals` and `terminals`, whose default member
initialisers leave them empty. -/
def cnf_grammar.copyCtor (g : cnf_grammar) : cnf_grammar :=
  { start_nonterm := g.start_nonterm
    non_terminals := ∅
    terminals := ∅
    epsilon_rules := g.epsilon_rules
    simple_rules := g.simple_rules
    complex_rules := g.complex_rules }

/-! ### Label-decomposed graph (src/src/label_decomposed_graph/label_decomposed_graph.hpp) -/

/-- The `label_decomposed_graph` class: vertex count and per-label matrices. -/
structure label_decomposed_graph where
  matrix_size : Nat
  matrices : SAL Mat

/-- Decimal digit value of a character. -/
def digitVal? (c : Char) : Option Nat :=
  if 48 ≤ c.toNat ∧ c.toNat ≤ 57 then some (c.toNat - 48) else none

/-- Numeral reading of a token (`istream >> size_t` on a clean digit token).
Tokens mixing digits and other characters are treated as failing, matching
the stream behaviour on the inputs considered here. -/
def tokNat? (t : String) : Option Nat :=
  if t.data.isEmpty then none
  else t.data.foldl
    (fun acc c =>
      match acc, digitVal? c with
      | some n, some d => some (n * 10 + d)
      | _, _ => none)
    (some 0)

/-- Parse of one graph line by the loader of the named header
(`iss >> v >> to >> label`): the first two tokens must be numerals, the third
is taken verbatim; extra tokens are ignored, shorter or non-numeric lines fail.
A line is modelled as its whitespace-separated tokens. -/
def parseLine_uvl (ts : List String) : Option (Nat × Nat × Lab) :=
  match ts with
  | t1 :: t2 :: t3 :: _ =>
      match tokNat? t1, tokNat? t2 with
      | some u, some v => some (u, v, t3)
      | _, _ => none
  | _ => none

/-- Accumulator phase of the canonical loader (label_decomposed_graph.hpp
lines 35-51): malformed lines are skipped, `matrix_size` tracks the running
maximum vertex index, each well-formed line appends its endpoints to the
per-label row and column arrays. -/
def ldg_scan (lines : List (List String)) : Nat × SAL (List Nat × List Nat) :=
  lines.foldl
    (fun st line =>
      match parseLine_uvl line with
      | none => st
      | some uvl =>
          let sz := max (max st.1 uvl.1) uvl.2.1
          let cur := mgetD st.2 uvl.2.2 ([], [])
          (sz, mset st.2 uvl.2.2 (cur.1 ++ [uvl.1], cur.2 ++ [uvl.2.1])))
    (0, [])

/-- Matrix built from equal-length row and column arrays
(`cuBool_Matrix_Build`). -/
def buildFromPairs (rows cols : List Nat) : Mat := (rows.zip cols).toFinset

/-- The canonical loader `label_decomposed_graph(const std::string&)` at
label_decomposed_graph.hpp lines 26-73: scan all lines, increment
`matrix_size` once, then build one matrix per label from its arrays. -/
def ldg_load (lines : List (List String)) : label_decomposed_graph :=
  let st := ldg_scan lines
  { matrix_size := st.1 + 1
    matrices := st.2.map (fun kv => (kv.1, buildFromPairs kv.2.1 kv.2.2)) }

/-- Parse of one graph line by the loader in src/unnamed/part_000
(`iss >> v >> label >> to`): first token numeral, second token is taken as the
label, third token numeral. -/
def part000_parseLine (ts : List String) : Option (Nat × Lab × Nat) :=
  match ts with
  | t1 :: t2 :: t3 :: _ =>
      match tokNat? t1, tokNat? t3 with
      | some v, some tgt => some (v, t2, tgt)
      | _, _ => none
  | _ => none

/-- Scan phase of the part_000 loader (part_000 lines 33-46): both endpoints
of a well-formed line are appended to the same `.first` array (line 45 writes
`first` where `second` was intended), `.second` stays empty, and after the
loop `matrix_size` is NOT incremented (part_000 has no `++matrix_size`).
The subsequent build phase of part_000 (lines 48-62) reads uninitialised
array cells, so only this scan phase determines its observable accumulator
state; on inputs with no well-formed line the build loop never runs and the
loaded graph has exactly the matrices and size produced here. -/
def part000_scan (lines : List (List String)) : Nat × SAL (List Nat × List Nat) :=
  lines.foldl
    (fun st line =>
      match part000_parseLine line with
      | none => st
      | some vlt =>
          let sz := max (max st.1 vlt.1) vlt.2.2
          let cur := mgetD st.2 vlt.2.1 ([], [])
          (sz, mset st.2 vlt.2.1 (cur.1 ++ [vlt.1, vlt.2.2], cur.2)))
    (0, [])

/-! ### Rule classification (classify_rules, identical in
IncrementalMatrixAlgo, FullyOptimizedAlgo and matrix_base_algo_fixed) -/

/-- Nonterminal collection of `classify_rules`: the start symbol, every
left-hand side of a complex or simple rule, and every epsilon rule. -/
def grammarNonterminals (g : cnf_grammar) : Finset Lab :=
  insert g.start_nonterm
    ((g.complex_rules.map (fun r => r.1)).toFinset ∪
      (g.simple_rules.map (fun r => r.1)).toFinset ∪ g.epsilon_rules.toFinset)

/-- CNF bucket: both right-hand symbols are nonterminals. -/
def cnfRules (g : cnf_grammar) : List (Lab × Lab × Lab) :=
  g.complex_rules.filter
    (fun r => r.2.1 ∈ grammarNonterminals g ∧ r.2.2 ∈ grammarNonterminals g)

/-- Extended-left bucket: nonterminal followed by terminal. -/
def extLeftRules (g : cnf_grammar) : List (Lab × Lab × Lab) :=
  g.complex_rules.filter
    (fun r => r.2.1 ∈ grammarNonterminals g ∧ r.2.2 ∉ grammarNonterminals g)

/-- Extended-right bucket: terminal followed by nonterminal. -/
def extRightRules (g : cnf_grammar) : List (Lab × Lab × Lab) :=
  g.complex_rules.filter
    (fun r => r.2.1 ∉ grammarNonterminals g ∧ r.2.2 ∈ grammarNonterminals g)

/-- Double-terminal bucket: both right-hand symbols are terminals. -/
def dblTermRules (g : cnf_grammar) : List (Lab × Lab × Lab) :=
  g.complex_rules.filter
    (fun r => r.2.1 ∉ grammarNonterminals g ∧ r.2.2 ∉ grammarNonterminals g)

/-! ### Optimization configuration (src/src/base_algo/optimization_config.hpp) -/

/-- The `OptimizationConfig` record. The C++ field `lazy_add_exponent` is a
double; the code derives `b_factor = n ^ lazy_add_exponent`, which we carry
as an abstract rational parameter where an engine needs it. -/
structure OptimizationConfig where
  use_incremental : Bool
  use_trivial_checks : Bool
  use_format_optimization : Bool
  use_lazy_add : Bool
  use_templates : Bool
  use_grammar_rewriting : Bool
  lazy_add_exponent : ℚ
  enable_stats : Bool

/-- The default-constructed configuration (all optimisations off,
exponent 0.5). -/
def OptimizationConfig.none_ : OptimizationConfig :=
  { use_incremental := false
    use_trivial_checks := false
    use_format_optimization := false
    use_lazy_add := false
    use_templates := false
    use_grammar_rewriting := false
    lazy_add_exponent := 1 / 2
    enable_stats := false }

/-- The static `OptimizationConfig::automatic(n, num_rules)` at
optimization_config.hpp lines 39-66. -/
def OptimizationConfig.automatic (n num_rules : Nat) : OptimizationConfig :=
  if n < 1000 then OptimizationConfig.none_
  else if n < 10000 then
    { OptimizationConfig.none_ with use_incremental := true, use_trivial_checks := true }
  else
    { OptimizationConfig.none_ with
        use_incremental := true
        use_trivial_checks := true
        use_lazy_add := true
        use_format_optimization := true
        use_templates := 100 < num_rules }

/-- The `is_empty` helper of the incremental and fully optimised engines:
with trivial checks disabled it always answers false. -/
def is_empty (cfg : OptimizationConfig) (m : Mat) : Bool :=
  cfg.use_trivial_checks && decide (m = ∅)

/-! ### CF matrix representation (src/unnamed/part_006, matrix_representation.hpp) -/

/-- Mapping nonterminal to matrix, the `CFMatrixRepresentation` map. -/
abbrev CFMR := SAL Mat

/-- The member `has`: the key is present with a non-empty matrix. -/
def CFMR.has (m : CFMR) (k : Lab) : Bool := decide (mgetD m k ∅ ≠ ∅)

/-- In-place union `union_with` (part_006 lines 69-78): for every key of the
other map, OR its matrix into this map under `get_or_create`. -/
def union_with (M other : CFMR) : CFMR :=
  other.foldl (fun acc kv => mset acc kv.1 (mgetD acc kv.1 ∅ ∪ kv.2)) M

/-- The `difference` member (part_006 lines 81-124). When the other map has
the key with a non-empty matrix the code extracts the pairs of this matrix
and re-adds every one of them (the per-element membership test is a stub), so
the key is copied verbatim whenever it is non-empty; when the other map lacks
the key (or holds it empty) the matrix is duplicated verbatim, empty or not. -/
def difference (A B : CFMR) : CFMR :=
  A.foldl
    (fun res kv =>
      if CFMR.has B kv.1 then
        if decide (kv.2 ≠ ∅) then mset res kv.1 kv.2 else res
      else mset res kv.1 kv.2)
    []

/-- Total TRUE count of a representation, the loop convergence measure. -/
def totalNvals (m : CFMR) : Nat := (m.map (fun kv => kv.2.card)).sum

/-- Labels with a non-empty matrix, in map order (the `equals` member first
collects these into `std::set<std::string>`). -/
def neLabels (m : CFMR) : List Lab :=
  (m.filter (fun kv => decide (kv.2 ≠ ∅))).map (fun kv => kv.1)

/-- The `equals` member (part_006 lines 137-197): the non-empty key sets must
coincide and the pair sets must agree on each of them. -/
def cfmrEquals (A B : CFMR) : Bool :=
  decide (neLabels A = neLabels B) &&
    (neLabels A).all (fun k => decide (mgetD A k ∅ = mgetD B k ∅))

/-! ### Incremental engine (src/src/base_algo/incremental_matrix_algo.hpp) -/

/-- Accumulation step shared by every product loop: when the product is
non-empty, `get_or_create` the slot and OR the product into it; an empty
product is discarded without creating the slot. -/
def accP (res : CFMR) (X : Lab) (p : Mat) : CFMR :=
  if p = ∅ then res else mset res X (mgetD res X ∅ ∪ p)

/-- Graph lookup `graph.matrices.find(...)` as an option. -/
def gfind (g : label_decomposed_graph) (k : Lab) : Option Mat := mget g.matrices k

/-- The value behind a present graph key. -/
def gat (g : label_decomposed_graph) (k : Lab) : Mat := mgetD g.matrices k ∅

namespace IncrementalMatrixAlgo

/-- `apply_cnf_rules_incremental` (incremental_matrix_algo.hpp lines 95-185):
for every CNF rule the three cases delta*delta, M*delta and delta*M are
independent plain ifs; each case may first be skipped by the (always false
under the `has` guard) trivial check. -/
def apply_cnf_rules_incremental (cfg : OptimizationConfig)
    (rules : List (Lab × Lab × Lab)) (M delta : CFMR) (res0 : CFMR) : CFMR :=
  rules.foldl
    (fun res r =>
      let X := r.1
      let Y := r.2.1
      let Z := r.2.2
      let res1 :=
        if CFMR.has delta Y && CFMR.has delta Z then
          if cfg.use_trivial_checks &&
              (is_empty cfg (mgetD delta Y ∅) || is_empty cfg (mgetD delta Z ∅)) then res
          else accP res X (mxm (mgetD delta Y ∅) (mgetD delta Z ∅))
        else res
      let res2 :=
        if CFMR.has M Y && CFMR.has delta Z then
          if cfg.use_trivial_checks &&
              (is_empty cfg (mgetD M Y ∅) || is_empty cfg (mgetD delta Z ∅)) then res1
          else accP res1 X (mxm (mgetD M Y ∅) (mgetD delta Z ∅))
        else res1
      if CFMR.has delta Y && CFMR.has M Z then
        if cfg.use_trivial_checks &&
            (is_empty cfg (mgetD delta Y ∅) || is_empty cfg (mgetD M Z ∅)) then res2
        else accP res2 X (mxm (mgetD delta Y ∅) (mgetD M Z ∅))
      else res2)
    res0

/-- `apply_extended_left_incremental` (lines 188-252): rules A to B t; the
delta and M cases run in sequence; a firing trivial check executes `continue`
and so skips the remainder of the rule. -/
def apply_extended_left_incremental (cfg : OptimizationConfig)
    (g : label_decomposed_graph) (rules : List (Lab × Lab × Lab))
    (M delta : CFMR) (res0 : CFMR) : CFMR :=
  rules.foldl
    (fun res r =>
      let X := r.1
      let Y := r.2.1
      let Z := r.2.2
      if gfind g Z = none then res
      else
        if CFMR.has delta Y && cfg.use_trivial_checks && is_empty cfg (mgetD delta Y ∅) then
          res
        else
          let res1 := if CFMR.has delta Y then accP res X (mxm (mgetD delta Y ∅) (gat g Z)) else res
          if CFMR.has M Y && cfg.use_trivial_checks && is_empty cfg (mgetD M Y ∅) then res1
          else if CFMR.has M Y then accP res1 X (mxm (mgetD M Y ∅) (gat g Z)) else res1)
    res0

/-- `apply_extended_right_incremental` (lines 255-319): rules A to t B; the
delta and M cases are independent. -/
def apply_extended_right_incremental (cfg : OptimizationConfig)
    (g : label_decomposed_graph) (rules : List (Lab × Lab × Lab))
    (M delta : CFMR) (res0 : CFMR) : CFMR :=
  rules.foldl
    (fun res r =>
      let X := r.1
      let Y := r.2.1
      let Z := r.2.2
      if gfind g Y = none then res
      else
        if CFMR.has delta Z && cfg.use_trivial_checks && is_empty cfg (mgetD delta Z ∅) then
          res
        else
          let res1 := if CFMR.has delta Z then accP res X (mxm (gat g Y) (mgetD delta Z ∅)) else res
          if CFMR.has M Z && cfg.use_trivial_checks && is_empty cfg (mgetD M Z ∅) then res1
          else if CFMR.has M Z then accP res1 X (mxm (gat g Y) (mgetD M Z ∅)) else res1)
    res0

/-- `apply_simple_rules_incremental` (lines 326-341): rules A to B applied to
the front only. -/
def apply_simple_rules_incremental (rules : List (Lab × Lab))
    (delta : CFMR) (res0 : CFMR) : CFMR :=
  rules.foldl
    (fun res r =>
      if CFMR.has delta r.2 then
        mset res r.1 (mgetD res r.1 ∅ ∪ mgetD delta r.2 ∅)
      else res)
    res0

/-- `apply_double_terminal` (lines 344-378): constant contributions computed
once during initialisation. -/
def apply_double_terminal (cfg : OptimizationConfig) (g : label_decomposed_graph)
    (rules : List (Lab × Lab × Lab)) (delta0 : CFMR) : CFMR :=
  rules.foldl
    (fun delta r =>
      let X := r.1
      let Y := r.2.1
      let Z := r.2.2
      if gfind g Y = none then delta
      else if gfind g Z = none then delta
      else if cfg.use_trivial_checks && (is_empty cfg (gat g Y) || is_empty cfg (gat g Z)) then
        delta
      else accP delta X (mxm (gat g Y) (gat g Z)))
    delta0

/-- Front initialisation from the simple rules (solve lines 407-424; the
identical loop opens `FullyOptimizedAlgo::solve`): for A to a with graph
matrix for a non-empty, OR it into the front slot of A. -/
def initSimple (gr : cnf_grammar) (g : label_decomposed_graph) (d0 : CFMR) : CFMR :=
  gr.simple_rules.foldl
    (fun d r =>
      match gfind g r.2 with
      | none => d
      | some gm => if 0 < gm.card then mset d r.1 (mgetD d r.1 ∅ ∪ gm) else d)
    d0

/-- Front initialisation from the epsilon rules (solve lines 427-446; same
loop in `FullyOptimizedAlgo::solve`): OR the identity into each slot. -/
def initEpsilon (gr : cnf_grammar) (n : Nat) (d0 : CFMR) : CFMR :=
  gr.epsilon_rules.foldl
    (fun d a => mset d a (mgetD d a ∅ ∪ identityMat n))
    d0

/-- Complete front initialisation of `IncrementalMatrixAlgo::solve`:
simple rules, epsilon rules, double-terminal rules. -/
def initDelta (cfg : OptimizationConfig) (gr : cnf_grammar)
    (g : label_decomposed_graph) : CFMR :=
  apply_double_terminal cfg g (dblTermRules gr)
    (initEpsilon gr g.matrix_size (initSimple gr g []))

/-- One front-propagation body (solve lines 483-508): build the temporary
front from the four rule groups, fold the front into M, and subtract M from
the temporary front. -/
def step (cfg : OptimizationConfig) (gr : cnf_grammar) (g : label_decomposed_graph)
    (M delta : CFMR) : CFMR × CFMR :=
  let dtmp :=
    apply_simple_rules_incremental gr.simple_rules delta
      (apply_extended_right_incremental cfg g (extRightRules gr) M delta
        (apply_extended_left_incremental cfg g (extLeftRules gr) M delta
          (apply_cnf_rules_incremental cfg (cnfRules gr) M delta [])))
  let M2 := union_with M delta
  (M2, difference dtmp M2)

/-- The main loop of `IncrementalMatrixAlgo::solve` (lines 466-522): stop
when the front is empty, and in any case after the iteration counter passes
100 (the fuel argument starts at 101). Returns the closed map and the
iteration count `stats.iterations`. -/
def loop (cfg : OptimizationConfig) (gr : cnf_grammar) (g : label_decomposed_graph) :
    Nat → CFMR → CFMR → Nat → CFMR × Nat
  | 0, M, _, it => (M, it)
  | fuel + 1, M, delta, it =>
      if totalNvals delta = 0 then (M, it + 1)
      else
        let st := step cfg gr g M delta
        loop cfg gr g fuel st.1 st.2 (it + 1)

/-- `IncrementalMatrixAlgo::solve` (lines 396-551): initialise the front, run
the loop, finally duplicate the start slot (or a fresh empty matrix when the
start nonterminal never received pairs). The second component records
`stats.iterations`. -/
def solve (cfg : OptimizationConfig) (gr : cnf_grammar)
    (g : label_decomposed_graph) : Mat × Nat :=
  let fin := loop cfg gr g 101 [] (initDelta cfg gr g) 0
  (if CFMR.has fin.1 gr.start_nonterm then mgetD fin.1 gr.start_nonterm ∅ else ∅, fin.2)

end IncrementalMatrixAlgo

/-! ### Lazy matrix set (src/src/base_algo/diagnostic_base_matrix_algo.hpp,
class LazyMatrixSet at lines 373-569) -/

/-- The violation test of `maintain_invariant` (lines 399-407): the smaller
value count is positive and `b * smaller >= larger`.  The C++ comparison is
on doubles with `b` passed in by the engine; it is modelled exactly over the
rationals. -/
def violB (b : ℚ) (A B : Mat) : Bool :=
  decide (0 < min A.card B.card) &&
    decide (((max A.card B.card : Nat) : ℚ) ≤ b * ((min A.card B.card : Nat) : ℚ))

/-- Offset of the first member of the list violating the invariant against
`A`, if any (the inner `j` scan of lines 395-407). -/
def firstViolIdx (b : ℚ) (A : Mat) : List Mat → Option Nat
  | [] => none
  | B :: rest =>
      if violB b A B then some 0 else (firstViolIdx b A rest).map (fun j => j + 1)

/-- First violating index pair `(i, j)` with `i < j` in scan order (the
double loop of lines 394-407). -/
def findPairIdx (b : ℚ) : List Mat → Option (Nat × Nat)
  | [] => none
  | A :: rest =>
      match firstViolIdx b A rest with
      | some j => some (0, j + 1)
      | none => (findPairIdx b rest).map (fun ij => (ij.1 + 1, ij.2 + 1))

theorem firstViolIdx_lt {b : ℚ} {A : Mat} : ∀ {rest : List Mat} {j : Nat},
    firstViolIdx b A rest = some j → j < rest.length
  | [], j, h => by simp [firstViolIdx] at h
  | B :: rest, j, h => by
      by_cases hv : violB b A B
      · have hj : j = 0 := by
          simp [firstViolIdx, hv] at h
          omega
        subst hj
        simp
      · simp only [firstViolIdx, if_neg hv, Option.map_eq_some'] at h
        rcases h with ⟨j0, hj0, rfl⟩
        have := firstViolIdx_lt hj0
        simpa using Nat.succ_lt_succ this

theorem findPairIdx_lt {b : ℚ} : ∀ {l : List Mat} {ij : Nat × Nat},
    findPairIdx b l = some ij → ij.1 < ij.2 ∧ ij.2 < l.length
  | [], ij, h => by simp [findPairIdx] at h
  | A :: rest, ij, h => by
      rcases hf : firstViolIdx b A rest with _ | j
      all_goals simp only [findPairIdx, hf] at h
      · rw [Option.map_eq_some'] at h
        rcases h with ⟨ij0, hij0, rfl⟩
        have := findPairIdx_lt hij0
        constructor
        · omega
        · simpa using Nat.succ_lt_succ this.2
      · rw [Option.some.injEq] at h
        subst h
        have := firstViolIdx_lt hf
        constructor
        · omega
        · simpa using Nat.succ_lt_succ this

theorem firstViolIdx_none_iff {b : ℚ} {A : Mat} {rest : List Mat} :
    firstViolIdx b A rest = none ↔ ∀ B ∈ rest, violB b A B = false := by
  induction rest with
  | nil => simp [firstViolIdx]
  | cons B rest ih =>
      by_cases hv : violB b A B
      · simp [firstViolIdx, hv]
      · simp [firstViolIdx, hv, ih, Bool.not_eq_true]

theorem findPairIdx_none_iff {b : ℚ} : ∀ {l : List Mat},
    findPairIdx b l = none ↔ l.Pairwise (fun A B => violB b A B = false)
  | [] => by simp [findPairIdx]
  | A :: rest => by
      rcases hf : firstViolIdx b A rest with _ | j
      · rw [show findPairIdx b (A :: rest) =
            Option.map (fun ij => (ij.1 + 1, ij.2 + 1)) (findPairIdx b rest) from by
          simp only [findPairIdx, hf]]
        rw [Option.map_eq_none', List.pairwise_cons, findPairIdx_none_iff]
        constructor
        · intro h
          exact ⟨firstViolIdx_none_iff.mp hf, h⟩
        · intro h
          exact h.2
      · simp only [findPairIdx, hf]
        constructor
        · intro h
          simp at h
        · intro h
          rcases List.pairwise_cons.mp h with ⟨hhead, _⟩
          have := firstViolIdx_none_iff.mpr (fun B hB => hhead B hB)
          rw [this] at hf
          simp at hf

/-- One merge pass of `maintain_invariant` (lines 390-440): while a violating
pair exists, erase both members (larger index first) and push their union. -/
def maintainGo (b : ℚ) (l : List Mat) : List Mat :=
  match h : findPairIdx b l with
  | none => l
  | some ij =>
      maintainGo b
        (((l.eraseIdx ij.2).eraseIdx ij.1) ++ [l.getD ij.1 ∅ ∪ l.getD ij.2 ∅])
termination_by l.length
decreasing_by
  rcases findPairIdx_lt h with ⟨hij, hj⟩
  have h1 : (l.eraseIdx ij.2).length = l.length - 1 := by
    rw [List.length_eraseIdx]
    simp [hj]
  have h2 : ((l.eraseIdx ij.2).eraseIdx ij.1).length = l.length - 2 := by
    rw [List.length_eraseIdx, h1]
    have : ij.1 < l.length - 1 := by omega
    simp [this]
    omega
  simp [h2]
  omega

/-- `maintain_invariant` (lines 387-444): merge until no violation remains,
then sort by value count.  `std::sort` on (nvals, handle) pairs leaves the
relative order of equal counts unspecified; a stable sort by count is used. -/
def maintain_invariant (b : ℚ) (l : List Mat) : List Mat :=
  if l.length ≤ 1 then l
  else (maintainGo b l).mergeSort (fun A B => A.card ≤ B.card)

namespace LazyMatrixSet

/-- `LazyMatrixSet::add` (lines 482-500): empty matrices are not inserted;
otherwise a duplicate is pushed and the invariant restored. -/
def add (b : ℚ) (s : List Mat) (m : Mat) : List Mat :=
  if m.card = 0 then s else maintain_invariant b (s ++ [m])

/-- `LazyMatrixSet::materialize` (lines 506-533): empty set gives a fresh
empty matrix, a singleton a duplicate, otherwise the fold of unions. -/
def materialize : List Mat → Mat
  | [] => ∅
  | m :: rest => rest.foldl (fun acc x => acc ∪ x) m

end LazyMatrixSet

/-! ### Lazy CF representation (same header, class LazyCFMatrixRepresentation
at lines 577-666) -/

/-- Mapping nonterminal to lazy matrix set, with the matrix dimension and the
`b` parameter handed to every freshly created set. -/
structure LazyCFMatrixRepresentation where
  matrix_size : Nat
  b_factor : ℚ
  lazy_matrices : SAL (List Mat)

namespace LazyCFMatrixRepresentation

/-- Fresh empty representation (the constructor). -/
def mk0 (n : Nat) (b : ℚ) : LazyCFMatrixRepresentation :=
  { matrix_size := n, b_factor := b, lazy_matrices := [] }

/-- Member `add` (lines 597-602): create the set on first use, then
`LazyMatrixSet::add`. -/
def add (L : LazyCFMatrixRepresentation) (label : Lab) (m : Mat) :
    LazyCFMatrixRepresentation :=
  { L with
      lazy_matrices :=
        mset L.lazy_matrices label
          (LazyMatrixSet.add L.b_factor (mgetD L.lazy_matrices label []) m) }

/-- Member `materialize` (lines 607-615): an absent label yields a fresh
empty matrix and, like the present-label path, leaves the map untouched (the
`operator[]` access happens only after the `find` guard succeeded).  The
returned state makes the frame effect explicit. -/
def materialize (L : LazyCFMatrixRepresentation) (label : Lab) :
    Mat × LazyCFMatrixRepresentation :=
  match mget L.lazy_matrices label with
  | none => (∅, L)
  | some s => (LazyMatrixSet.materialize s, L)

/-- Member `has` (lines 617-620). -/
def has (L : LazyCFMatrixRepresentation) (label : Lab) : Bool :=
  match mget L.lazy_matrices label with
  | none => false
  | some s => !s.isEmpty

/-- Member `labels` (lines 622-628). -/
def labels (L : LazyCFMatrixRepresentation) : List Lab :=
  L.lazy_matrices.map (fun kv => kv.1)

/-- Member `to_normal` (lines 652-665): materialise every label whose set is
non-empty. -/
def to_normal (L : LazyCFMatrixRepresentation) : CFMR :=
  L.lazy_matrices.foldl
    (fun res kv =>
      if kv.2.isEmpty then res else mset res kv.1 (LazyMatrixSet.materialize kv.2))
    []

end LazyCFMatrixRepresentation

/-! ### Fully optimised engine (src/src/base_algo/fully_optimized_algo.hpp,
second class FullyOptimizedAlgo, lines 708-1193) -/

namespace FullyOptimizedAlgo

/-- `multiply_and_add_lazy` (lines 775-814): skip on a trivially empty
operand, multiply, and on a non-empty product either add it symbolically to
the lazy slot or (without lazy addition) materialise the slot, OR, and add
the concrete sum back. -/
def multiply_and_add_lazy (cfg : OptimizationConfig) (A B : Mat) (label : Lab)
    (L : LazyCFMatrixRepresentation) : LazyCFMatrixRepresentation :=
  if is_empty cfg A || is_empty cfg B then L
  else
    let p := mxm A B
    if 0 < p.card then
      if cfg.use_lazy_add then LazyCFMatrixRepresentation.add L label p
      else
        let m := (LazyCFMatrixRepresentation.materialize L label).1
        LazyCFMatrixRepresentation.add L label (m ∪ p)
    else L

/-- `apply_cnf_incremental_lazy` of the corrected engine (lines 834-858): the
three CNF cases are independent plain ifs. -/
def apply_cnf_incremental_lazy (cfg : OptimizationConfig)
    (rules : List (Lab × Lab × Lab)) (M delta : CFMR)
    (L0 : LazyCFMatrixRepresentation) : LazyCFMatrixRepresentation :=
  rules.foldl
    (fun L r =>
      let X := r.1
      let Y := r.2.1
      let Z := r.2.2
      let L1 :=
        if CFMR.has delta Y && CFMR.has delta Z then
          multiply_and_add_lazy cfg (mgetD delta Y ∅) (mgetD delta Z ∅) X L
        else L
      let L2 :=
        if CFMR.has M Y && CFMR.has delta Z then
          multiply_and_add_lazy cfg (mgetD M Y ∅) (mgetD delta Z ∅) X L1
        else L1
      if CFMR.has delta Y && CFMR.has M Z then
        multiply_and_add_lazy cfg (mgetD delta Y ∅) (mgetD M Z ∅) X L2
      else L2)
    L0

/-- `apply_extended_left_incremental_lazy` (lines 863-883). -/
def apply_extended_left_incremental_lazy (cfg : OptimizationConfig)
    (g : label_decomposed_graph) (rules : List (Lab × Lab × Lab)) (M delta : CFMR)
    (L0 : LazyCFMatrixRepresentation) : LazyCFMatrixRepresentation :=
  rules.foldl
    (fun L r =>
      let X := r.1
      let Y := r.2.1
      let Z := r.2.2
      if gfind g Z = none then L
      else
        let L1 :=
          if CFMR.has delta Y then
            multiply_and_add_lazy cfg (mgetD delta Y ∅) (gat g Z) X L
          else L
        if CFMR.has M Y then
          multiply_and_add_lazy cfg (mgetD M Y ∅) (gat g Z) X L1
        else L1)
    L0

/-- `apply_extended_right_incremental_lazy` of the corrected engine
(lines 888-910): the delta and M cases are independent. -/
def apply_extended_right_incremental_lazy (cfg : OptimizationConfig)
    (g : label_decomposed_graph) (rules : List (Lab × Lab × Lab)) (M delta : CFMR)
    (L0 : LazyCFMatrixRepresentation) : LazyCFMatrixRepresentation :=
  rules.foldl
    (fun L r =>
      let X := r.1
      let Y := r.2.1
      let Z := r.2.2
      if gfind g Y = none then L
      else
        let L1 :=
          if CFMR.has delta Z then
            multiply_and_add_lazy cfg (gat g Y) (mgetD delta Z ∅) X L
          else L
        if CFMR.has M Z then
          multiply_and_add_lazy cfg (gat g Y) (mgetD M Z ∅) X L1
        else L1)
    L0

/-- `apply_simple_rules_incremental_lazy` (lines 921-935): a duplicate of the
front matrix of the right-hand side is added to the slot of the left-hand
side. -/
def apply_simple_rules_incremental_lazy (rules : List (Lab × Lab)) (delta : CFMR)
    (L0 : LazyCFMatrixRepresentation) : LazyCFMatrixRepresentation :=
  rules.foldl
    (fun L r =>
      if CFMR.has delta r.2 then
        LazyCFMatrixRepresentation.add L r.1 (mgetD delta r.2 ∅)
      else L)
    L0

/-- `apply_double_terminal_lazy` (lines 941-953). -/
def apply_double_terminal_lazy (cfg : OptimizationConfig)
    (g : label_decomposed_graph) (rules : List (Lab × Lab × Lab))
    (L0 : LazyCFMatrixRepresentation) : LazyCFMatrixRepresentation :=
  rules.foldl
    (fun L r =>
      let X := r.1
      let Y := r.2.1
      let Z := r.2.2
      if gfind g Y = none then L
      else if gfind g Z = none then L
      else multiply_and_add_lazy cfg (gat g Y) (gat g Z) X L)
    L0

/-- Front initialisation of `FullyOptimizedAlgo::solve` (lines 988-1076):
simple and epsilon rules exactly as in the incremental engine, then the
double-terminal rules through a lazy representation (when lazy addition is
on, which every factory configuration using this engine sets) or directly.
In the direct branch the source creates the slot and ORs the product without
checking it for emptiness. -/
def initDelta (cfg : OptimizationConfig) (gr : cnf_grammar)
    (g : label_decomposed_graph) (b : ℚ) : CFMR :=
  let d := IncrementalMatrixAlgo.initEpsilon gr g.matrix_size
    (IncrementalMatrixAlgo.initSimple gr g [])
  if cfg.use_lazy_add then
    let lz := apply_double_terminal_lazy cfg g (dblTermRules gr)
      (LazyCFMatrixRepresentation.mk0 g.matrix_size b)
    lz.labels.foldl
      (fun d l => mset d l (mgetD d l ∅ ∪ (LazyCFMatrixRepresentation.materialize lz l).1))
      d
  else
    (dblTermRules gr).foldl
      (fun d r =>
        if gfind g r.2.1 = none then d
        else if gfind g r.2.2 = none then d
        else if !is_empty cfg (gat g r.2.1) && !is_empty cfg (gat g r.2.2) then
          mset d r.1 (mgetD d r.1 ∅ ∪ mxm (gat g r.2.1) (gat g r.2.2))
        else d)
      d

/-- One loop body of `FullyOptimizedAlgo::solve` (lines 1112-1142): the four
lazy rule groups build the symbolic temporary front, the front folds into M,
the temporary front is materialised and M subtracted from it. -/
def step (cfg : OptimizationConfig) (gr : cnf_grammar) (g : label_decomposed_graph)
    (b : ℚ) (M delta : CFMR) : CFMR × CFMR :=
  let L :=
    apply_simple_rules_incremental_lazy gr.simple_rules delta
      (apply_extended_right_incremental_lazy cfg g (extRightRules gr) M delta
        (apply_extended_left_incremental_lazy cfg g (extLeftRules gr) M delta
          (apply_cnf_incremental_lazy cfg (cnfRules gr) M delta
            (LazyCFMatrixRepresentation.mk0 g.matrix_size b))))
  let M2 := union_with M delta
  let dtmp := L.to_normal
  (M2, difference dtmp M2)

/-- The main loop of `FullyOptimizedAlgo::solve` (lines 1093-1156), capped
exactly like the incremental engine. -/
def loop (cfg : OptimizationConfig) (gr : cnf_grammar) (g : label_decomposed_graph)
    (b : ℚ) : Nat → CFMR → CFMR → Nat → CFMR × Nat
  | 0, M, _, it => (M, it)
  | fuel + 1, M, delta, it =>
      if totalNvals delta = 0 then (M, it + 1)
      else
        let st := step cfg gr g b M delta
        loop cfg gr g b fuel st.1 st.2 (it + 1)

/-- `FullyOptimizedAlgo::solve` (lines 977-1188).  The parameter `b` stands
for the constructor computation `b_factor = n ^ lazy_add_exponent`. -/
def solve (cfg : OptimizationConfig) (gr : cnf_grammar)
    (g : label_decomposed_graph) (b : ℚ) : Mat × Nat :=
  let fin := loop cfg gr g b 101 [] (initDelta cfg gr g b) 0
  (if CFMR.has fin.1 gr.start_nonterm then mgetD fin.1 gr.start_nonterm ∅ else ∅, fin.2)

/-- The first (uncorrected) `apply_cnf_incremental_lazy` in the same header
(lines 326-351): the three CNF cases form an else-if chain, so at most one of
them fires per rule. -/
def apply_cnf_incremental_lazy_first (cfg : OptimizationConfig)
    (rules : List (Lab × Lab × Lab)) (M delta : CFMR)
    (L0 : LazyCFMatrixRepresentation) : LazyCFMatrixRepresentation :=
  rules.foldl
    (fun L r =>
      let X := r.1
      let Y := r.2.1
      let Z := r.2.2
      if CFMR.has delta Y && CFMR.has delta Z then
        multiply_and_add_lazy cfg (mgetD delta Y ∅) (mgetD delta Z ∅) X L
      else if CFMR.has M Y && CFMR.has delta Z then
        multiply_and_add_lazy cfg (mgetD M Y ∅) (mgetD delta Z ∅) X L
      else if CFMR.has delta Y && CFMR.has M Z then
        multiply_and_add_lazy cfg (mgetD delta Y ∅) (mgetD M Z ∅) X L
      else L)
    L0

end FullyOptimizedAlgo

/-! ### Base engine (src/src/base_algo/base_matrix_algo.hpp, first class
matrix_base_algo, lines 9-241) -/

namespace matrix_base_algo

/-- `multiply_cf_matrices` (lines 19-52): for every complex rule X to Y Z,
when both operands are present and non-empty multiply them and OR the
non-empty product into the result slot of X.  Terminal symbols are never
consulted in the graph here. -/
def multiply_cf_matrices (gr : cnf_grammar) (A B : CFMR) (res0 : CFMR) : CFMR :=
  gr.complex_rules.foldl
    (fun res r =>
      if CFMR.has A r.2.1 && CFMR.has B r.2.2 then
        accP res r.1 (mxm (mgetD A r.2.1 ∅) (mgetD B r.2.2 ∅))
      else res)
    res0

/-- The main loop of the base `solve` (lines 137-211): square M under the
grammar product, union, compare with the snapshot, cap at 100 iterations. -/
def loop (gr : cnf_grammar) : Nat → CFMR → Nat → CFMR × Nat
  | 0, M, it => (M, it)
  | fuel + 1, M, it =>
      let prod := multiply_cf_matrices gr M M []
      let M2 := union_with M prod
      if cfmrEquals M2 M then (M2, it + 1)
      else loop gr fuel M2 (it + 1)

/-- `matrix_base_algo::solve` (lines 64-241): initialise M from the simple
and epsilon rules, iterate to quiescence, return the start slot. -/
def solve (gr : cnf_grammar) (g : label_decomposed_graph) : Mat × Nat :=
  let M0 := IncrementalMatrixAlgo.initEpsilon gr g.matrix_size
    (IncrementalMatrixAlgo.initSimple gr g [])
  let fin := loop gr 101 M0 0
  (if CFMR.has fin.1 gr.start_nonterm then mgetD fin.1 gr.start_nonterm ∅ else ∅, fin.2)

end matrix_base_algo

/-! ### Diagnostic engine (src/src/base_algo/diagnostic_base_matrix_algo.hpp,
class OptimizedExtendedCNFAlgo, lines 10-353) -/

namespace OptimizedExtendedCNFAlgo

/-- `apply_cnf_rules` (lines 87-114): CNF rules against M and M. -/
def apply_cnf_rules (rules : List (Lab × Lab × Lab)) (M : CFMR) (res0 : CFMR) : CFMR :=
  rules.foldl
    (fun res r =>
      if CFMR.has M r.2.1 && CFMR.has M r.2.2 then
        accP res r.1 (mxm (mgetD M r.2.1 ∅) (mgetD M r.2.2 ∅))
      else res)
    res0

/-- `apply_extended_left_rules` (lines 117-151): the terminal matrix comes
from the graph and must be present and non-empty. -/
def apply_extended_left_rules (g : label_decomposed_graph)
    (rules : List (Lab × Lab × Lab)) (M : CFMR) (res0 : CFMR) : CFMR :=
  rules.foldl
    (fun res r =>
      if !CFMR.has M r.2.1 then res
      else if gfind g r.2.2 = none then res
      else if (gat g r.2.2).card = 0 then res
      else accP res r.1 (mxm (mgetD M r.2.1 ∅) (gat g r.2.2)))
    res0

/-- One iteration of the diagnostic main loop (lines 272-316):
`apply_extended_right_rules` is commented out in the source, so only the CNF
and extended-left groups contribute. -/
def step (gr : cnf_grammar) (g : label_decomposed_graph) (M : CFMR) : CFMR :=
  let prod := apply_extended_left_rules g (extLeftRules gr)
    M (apply_cnf_rules (cnfRules gr) M [])
  union_with M prod

/-- The diagnostic main loop with its iteration cap supplied as fuel: the
source breaks when `iteration > 20`, i.e. after at most 21 executed
iterations. -/
def loop (gr : cnf_grammar) (g : label_decomposed_graph) :
    Nat → CFMR → Nat → CFMR × Nat
  | 0, M, it => (M, it)
  | fuel + 1, M, it =>
      let M2 := step gr g M
      if cfmrEquals M2 M then (M2, it + 1)
      else loop gr g fuel M2 (it + 1)

/-- `OptimizedExtendedCNFAlgo::solve` with the cap left as a parameter; the
source text (line 312) fixes `cap = 20`. -/
def solveWithCap (cap : Nat) (gr : cnf_grammar) (g : label_decomposed_graph) :
    Mat × Nat :=
  let M0 := IncrementalMatrixAlgo.initEpsilon gr g.matrix_size
    (IncrementalMatrixAlgo.initSimple gr g [])
  let fin := loop gr g (cap + 1) M0 0
  (if CFMR.has fin.1 gr.start_nonterm then mgetD fin.1 gr.start_nonterm ∅ else ∅, fin.2)

/-- `OptimizedExtendedCNFAlgo::solve` (lines 203-352) as compiled, with the
hard-coded cap of 20 iterations. -/
def solve (gr : cnf_grammar) (g : label_decomposed_graph) : Mat × Nat :=
  solveWithCap 20 gr g

end OptimizedExtendedCNFAlgo

/-! ### Algorithm factory (src/src/base_algo/fully_optimized_algo.hpp,
class CFReachabilityAlgoFactory at lines 1217-1496) -/

/-- The `AlgoType` enumeration of the factory. -/
inductive AlgoType where
  | INCREMENTAL
  | TRIVIAL_OPT
  | LAZY_ADD
  | FULLY_OPTIMIZED
  | AUTO
deriving DecidableEq

namespace CFReachabilityAlgoFactory

/-- `choose_algo_type` (lines 1330-1352): below 500 vertices the incremental
engine with trivial checks, otherwise the fully optimised engine.  The
grammar is only printed. -/
def choose_algo_type (n : Nat) (gr : cnf_grammar) : AlgoType :=
  if n < 500 then AlgoType.TRIVIAL_OPT else AlgoType.FULLY_OPTIMIZED

/-- AUTO resolution at the head of the factory `solve` (lines 1272-1274): a
manual type is passed through untouched. -/
def resolve (t : AlgoType) (n : Nat) (gr : cnf_grammar) : AlgoType :=
  if t = AlgoType.AUTO then choose_algo_type n gr else t

/-- Configuration built by the INCREMENTAL and TRIVIAL_OPT factory branches. -/
def incrementalConfig (triv : Bool) : OptimizationConfig :=
  { OptimizationConfig.none_ with use_trivial_checks := triv, use_lazy_add := false }

/-- Configuration built by the LAZY_ADD and FULLY_OPTIMIZED factory branches:
lazy addition on and `lazy_add_exponent = 0.5`, so the engine constructor
computes `b_factor = n ^ 0.5 = sqrt n`. -/
def optimizedConfig (triv : Bool) : OptimizationConfig :=
  { OptimizationConfig.none_ with
      use_trivial_checks := triv
      use_lazy_add := true
      lazy_add_exponent := 1 / 2 }

/-- The factory `solve(grammar, graph, type)` (lines 1267-1325).  The
parameter `b` abstracts the real number `n ^ 0.5` the engine constructor
derives from `lazy_add_exponent`; every theorem below holds for each value of
`b`.  The unreachable AUTO arm returns the fresh empty matrix the fallthrough
code builds. -/
def solve (t : AlgoType) (gr : cnf_grammar) (g : label_decomposed_graph) (b : ℚ) : Mat :=
  match resolve t g.matrix_size gr with
  | AlgoType.INCREMENTAL => (IncrementalMatrixAlgo.solve (incrementalConfig false) gr g).1
  | AlgoType.TRIVIAL_OPT => (IncrementalMatrixAlgo.solve (incrementalConfig true) gr g).1
  | AlgoType.LAZY_ADD => (FullyOptimizedAlgo.solve (optimizedConfig false) gr g b).1
  | AlgoType.FULLY_OPTIMIZED => (FullyOptimizedAlgo.solve (optimizedConfig true) gr g b).1
  | AlgoType.AUTO => ∅

end CFReachabilityAlgoFactory

/-! ### Handle heap (the cuBool matrix store) and the second base engine

The second `matrix_base_algo` in base_matrix_algo.hpp (lines 242-359) mutates
the per-label matrices of its `Graph` member in place, so value semantics
cannot express the frame effect on the caller's graph.  Matrices are
therefore stored in an explicit heap indexed by handles; the engine member
graph maps labels to handles.  The engine is constructed from the caller's
graph through the `label_decomposed_graph` copy constructor
(label_decomposed_graph.hpp lines 75-80), which duplicates every matrix into
a fresh handle. -/

/-- Heap of cuBool matrices; a handle is an index. -/
abbrev Heap := List Mat

/-- Read the matrix behind a handle. -/
def hread (h : Heap) (i : Nat) : Mat := h.getD i ∅

/-- Overwrite the matrix behind a handle (in-place cuBool mutation). -/
def hwrite (h : Heap) (i : Nat) (m : Mat) : Heap := h.set i m

/-- Allocate a fresh handle (`cuBool_Matrix_New` / `Duplicate`). -/
def halloc (h : Heap) (m : Mat) : Heap × Nat := (h ++ [m], h.length)

/-- A label-decomposed graph whose matrices live in the heap. -/
structure HLDG where
  matrix_size : Nat
  matrices : SAL Nat

/-- The copy constructor of `label_decomposed_graph` (lines 75-80): duplicate
every matrix of the source into a fresh handle. -/
def ldgCopy (h0 : Heap) (g : HLDG) : Heap × HLDG :=
  let st := g.matrices.foldl
    (fun (st : Heap × SAL Nat) kv =>
      let al := halloc st.1 (hread st.1 kv.2)
      (al.1, mset st.2 kv.1 al.2))
    (h0, [])
  (st.1, { matrix_size := g.matrix_size, matrices := st.2 })

namespace matrix_base_algo2

/-- Engine state during `solve`: the heap and the member graph map. -/
abbrev St := Heap × SAL Nat

/-- Key creation on the member graph (the
`if (Graph.matrices.find(x) == Graph.matrices.end()) cuBool_Matrix_New(&Graph[x], ...)`
pattern): `operator[]` first inserts a freshly built empty matrix, which the
following `cuBool_Matrix_New` immediately replaces by another fresh one. -/
def ensureKey (st : St) (k : Lab) : St :=
  match mget st.2 k with
  | some _ => st
  | none =>
      let a1 := halloc st.1 ∅
      let a2 := halloc a1.1 ∅
      (a2.1, mset st.2 k a2.2)

/-- Handle of a member key (present after `ensureKey`). -/
def keyH (st : St) (k : Lab) : Nat := (mget st.2 k).getD 0

/-- Epsilon phase of the second `solve` (lines 277-296): build one identity
matrix, then OR it in place into each epsilon slot of the member graph. -/
def epsPhase (gr : cnf_grammar) (n : Nat) (st0 : St) : St :=
  let al := halloc st0.1 (identityMat n)
  gr.epsilon_rules.foldl
    (fun st left =>
      let st := ensureKey st left
      let hdl := keyH st left
      (hwrite st.1 hdl (hread st.1 al.2 ∪ hread st.1 hdl), st.2))
    (al.1, st0.2)

/-- Simple-rule phase (lines 299-314): allocate a result, write the union of
the two member slots into it, and rebind the left-hand slot to it. -/
def simplePhase (gr : cnf_grammar) (st0 : St) : St :=
  gr.simple_rules.foldl
    (fun st r =>
      let st := ensureKey st r.1
      let st := ensureKey st r.2
      let al := halloc st.1 ∅
      let h2 := hwrite al.1 al.2 (hread al.1 (keyH st r.1) ∪ hread al.1 (keyH st r.2))
      (h2, mset st.2 r.1 al.2))
    st0

/-- One complex rule of the core loop (lines 329-349): two fresh handles,
the product written into the first, the union with the old left slot into the
second, which then replaces the left slot. -/
def coreRule (st : St) (r : Lab × Lab × Lab) : St :=
  let st := ensureKey st r.1
  let st := ensureKey st r.2.1
  let st := ensureKey st r.2.2
  let a1 := halloc st.1 ∅
  let a2 := halloc a1.1 ∅
  let h1 := hwrite a2.1 a1.2 (mxm (hread a2.1 (keyH st r.2.1)) (hread a2.1 (keyH st r.2.2)))
  let h2 := hwrite h1 a2.2 (hread h1 (keyH st r.1) ∪ hread h1 a1.2)
  (h2, mset st.2 r.1 a2.2)

/-- One pass of the core `while (changed)` loop over all complex rules. -/
def corePass (gr : cnf_grammar) (st : St) : St :=
  gr.complex_rules.foldl coreRule st

/-- The core loop; the source loop is unbounded (it stops when the value
counts it reads stop growing), so the pass count is kept universally
quantified through a fuel parameter. -/
def coreLoop (gr : cnf_grammar) : Nat → St → St
  | 0, st => st
  | fuel + 1, st => coreLoop gr fuel (corePass gr st)

/-- The second `matrix_base_algo::solve` (lines 271-357) over the heap: the
engine member graph is the copy-constructed duplicate of the caller's graph,
and all phases mutate only the member.  The final `Graph[start]` access may
create the slot.  `cuBool_Matrix_Free` calls deallocate handles without
writing matrix contents and are not modelled.  The member `matrix_size` `n`
is a parameter (the two-argument constructor leaves it 0, the path
constructor sets it to the loaded size); the frame result below holds for
every value.  Returns the final heap, the member map, and the handle of the
returned matrix. -/
def solveH (gr : cnf_grammar) (n : Nat) (fuel : Nat) (h0 : Heap) (gcaller : HLDG) :
    Heap × SAL Nat × Nat :=
  let cp := ldgCopy h0 gcaller
  let st1 := epsPhase gr n (cp.1, cp.2.matrices)
  let st2 := simplePhase gr st1
  let st3 := coreLoop gr fuel st2
  let st4 := ensureKey st3 gr.start_nonterm
  (st4.1, st4.2, keyH st4 gr.start_nonterm)

end matrix_base_algo2

/-! ### Auxiliary definitions for the claims -/

/-- Modelled from the spec for claim C2 (the sentence defining
`difference(other)`): the result holds, for every key of this map, the set
difference of this matrix and the other matrix under the same key; keys
absent in the other map are copied verbatim (their difference is taken
against the empty relation). -/
def differenceSpec (A B : CFMR) : CFMR :=
  A.map (fun kv => (kv.1, kv.2 \ mgetD B kv.1 ∅))

/-- Fold a sequence of `LazyMatrixSet::add` calls starting from the freshly
constructed empty set. -/
def lmsAddAll (b : ℚ) (ms : List Mat) : List Mat :=
  ms.foldl (fun s m => LazyMatrixSet.add b s m) []

/-- Union of all members of a lazy matrix set. -/
def lmsU (s : List Mat) : Mat := s.foldl (fun a x => a ∪ x) ∅

/-- The violation predicate of the claim on a pair of members: `b` times the
smaller value count reaches the larger one. -/
def claimViol (b : ℚ) (A B : Mat) : Prop :=
  ((max A.card B.card : Nat) : ℚ) ≤ b * ((min A.card B.card : Nat) : ℚ)

/-! Concrete labels and inputs used by counterexamples and witnesses. -/

/-- Label constant. -/
def labS : Lab := "S"

/-- Label constant. -/
def labA : Lab := "a"

/-- Label constant. -/
def labB : Lab := "b"

/-- Label constant. -/
def labT : Lab := "t"

/-- Label constant. -/
def labU : Lab := "u"

/-- Singleton representation mapping S to the single pair (0, 0). -/
def cfmrS00 : CFMR := [(labS, {(0, 0)})]

/-- Grammar with the single double-terminal rule S to a b (a, b are
terminals: S is the only left-hand side). -/
def grAB : cnf_grammar :=
  { start_nonterm := labS
    non_terminals := ∅
    terminals := ∅
    epsilon_rules := []
    simple_rules := []
    complex_rules := [(labS, labA, labB)] }

/-- Graph with one a-edge 0 to 1 and one b-edge 1 to 2. -/
def gAB : label_decomposed_graph :=
  { matrix_size := 3
    matrices := [(labA, {(0, 1)}), (labB, {(1, 2)})] }

/-- Grammar with the self-recursive CNF rule S to S S. -/
def grSS : cnf_grammar :=
  { start_nonterm := labS
    non_terminals := ∅
    terminals := ∅
    epsilon_rules := []
    simple_rules := []
    complex_rules := [(labS, labS, labS)] }

/-- Grammar for the diagnostic-engine run: S to t (simple) and the
extended-left rule S to S u. -/
def grChain : cnf_grammar :=
  { start_nonterm := labS
    non_terminals := ∅
    terminals := ∅
    epsilon_rules := []
    simple_rules := [(labS, labT)]
    complex_rules := [(labS, labS, labU)] }

/-- Chain graph on 25 vertices: one t-edge 0 to 1, then u-edges i to i+1 for
i = 1..23. -/
def gChain : label_decomposed_graph :=
  { matrix_size := 25
    matrices :=
      [(labT, {(0, 1)}), (labU, (Finset.range 23).image (fun i => (i + 1, i + 2)))] }

/-- The tokenised graph line 0 1 a. -/
def line01a : List String := [ "0", "1", "a" ]

/-- Grammar whose parsed symbol sets are non-empty, for exercising the copy
constructor. -/
def gr10 : cnf_grammar :=
  { start_nonterm := labS
    non_terminals := {labS}
    terminals := {labA}
    epsilon_rules := [labS]
    simple_rules := [(labS, labA)]
    complex_rules := [] }

/-- The configuration built by the factory LAZY_ADD branch. -/
def cfgLazy : OptimizationConfig := CFReachabilityAlgoFactory.optimizedConfig false

/-- Closed map with S known: the single pair (0, 1). -/
def c3M : CFMR := [(labS, {(0, 1)})]

/-- Front with S new: the single pair (1, 2). -/
def c3D : CFMR := [(labS, {(1, 2)})]

/-! ### Claims -/

/-- C10: copy-constructing a `cnf_grammar` preserves the start nonterminal
and the epsilon, simple and complex rule lists, but leaves the copy's
`non_terminals` and `terminals` sets empty regardless of the source, so a
nonterminal-membership query answered positively on the original is answered
negatively on the copy. -/
theorem C10_copy_constructor (g : cnf_grammar) (h : g.non_terminals ≠ ∅) :
    g.copyCtor.start_nonterm = g.start_nonterm ∧
    g.copyCtor.epsilon_rules = g.epsilon_rules ∧
    g.copyCtor.simple_rules = g.simple_rules ∧
    g.copyCtor.complex_rules = g.complex_rules ∧
    g.copyCtor.non_terminals = ∅ ∧
    g.copyCtor.terminals = ∅ ∧
    ∃ s, s ∈ g.non_terminals ∧ s ∉ g.copyCtor.non_terminals := by
  refine ⟨rfl, rfl, rfl, rfl, rfl, rfl, ?_⟩
  rcases Finset.nonempty_iff_ne_empty.mpr h with ⟨s, hs⟩
  exact ⟨s, hs, by simp [cnf_grammar.copyCtor]⟩

/-- Witness for C10 at a concrete grammar with a non-empty nonterminal set. -/
theorem C10_copy_constructor_witness :
    gr10.non_terminals ≠ ∅ ∧
    ∃ s, s ∈ gr10.non_terminals ∧ s ∉ gr10.copyCtor.non_terminals :=
  ⟨by decide, (C10_copy_constructor gr10 (by decide)).2.2.2.2.2.2⟩

/-- C2: the `difference` of part_006 does not compute the per-key set
difference the claim states.  At A = B = the map sending S to the single
pair (0,0), the claim demands the empty set for S, but the code copies the
matrix of A verbatim; the spec-modelled `differenceSpec` shows the demanded
value. -/
theorem C2_difference_copies_verbatim :
    difference cfmrS00 cfmrS00 = [(labS, ({(0, 0)} : Mat))] ∧
    differenceSpec cfmrS00 cfmrS00 = [(labS, (∅ : Mat))] ∧
    difference cfmrS00 cfmrS00 ≠ differenceSpec cfmrS00 cfmrS00 := by
  refine ⟨by decide, by decide, by decide⟩

/-- C3: on the CNF rule S to S S with S present in both the closed map
(M[S] = {(0,1)}) and the front (delta[S] = {(1,2)}), the else-if chain of the
first `apply_cnf_incremental_lazy` lets only the delta-delta case fire (an
empty product), missing the pair (0,2) = M[S] times delta[S]; the
incremental engine and the corrected lazy engine, whose three cases are
independent, both produce it. -/
theorem C3_elseif_skips_independent_cases :
    (FullyOptimizedAlgo.apply_cnf_incremental_lazy_first cfgLazy (cnfRules grSS) c3M c3D
        (LazyCFMatrixRepresentation.mk0 3 2)).to_normal = [] ∧
    IncrementalMatrixAlgo.apply_cnf_rules_incremental cfgLazy (cnfRules grSS) c3M c3D []
      = [(labS, ({(0, 2)} : Mat))] ∧
    (FullyOptimizedAlgo.apply_cnf_incremental_lazy cfgLazy (cnfRules grSS) c3M c3D
        (LazyCFMatrixRepresentation.mk0 3 2)).to_normal = [(labS, ({(0, 2)} : Mat))] := by
  refine ⟨by decide, by decide, by decide⟩

/-- C9: materialising a label that is absent from a lazy representation (or
whose lazy set is empty) returns a fresh empty matrix with zero TRUE entries
and leaves the representation untouched. -/
theorem C9_materialize_absent (L : LazyCFMatrixRepresentation) (lab : Lab)
    (h : mget L.lazy_matrices lab = none ∨ mget L.lazy_matrices lab = some []) :
    L.materialize lab = ((∅ : Mat), L) := by
  rcases h with h | h <;>
    simp [LazyCFMatrixRepresentation.materialize, h, LazyMatrixSet.materialize]

/-- Witness for C9: a representation holding a set for the label a, queried
at the absent label S. -/
theorem C9_materialize_absent_witness :
    mget ((LazyCFMatrixRepresentation.mk0 4 2).add labA {(0, 0)}).lazy_matrices labS = none ∧
    ((LazyCFMatrixRepresentation.mk0 4 2).add labA {(0, 0)}).materialize labS
      = ((∅ : Mat), (LazyCFMatrixRepresentation.mk0 4 2).add labA {(0, 0)}) :=
  ⟨by decide, C9_materialize_absent _ _ (Or.inl (by decide))⟩

/-- Counterexample for C8: at n = 500 (inside the claimed band
500 to 9999) the selector picks the fully optimised engine, not the
incremental engine with trivial checks, and `OptimizationConfig::automatic`
does not key lazy addition on the binary rule count (at n = 5000 with 200
rules lazy addition stays off; the count keys `use_templates` instead, and
only from n = 10000 up). -/
theorem C8_selector_counterexample :
    CFReachabilityAlgoFactory.choose_algo_type 500 grAB = AlgoType.FULLY_OPTIMIZED ∧
    AlgoType.FULLY_OPTIMIZED ≠ AlgoType.TRIVIAL_OPT ∧
    (OptimizationConfig.automatic 5000 200).use_lazy_add = false ∧
    (OptimizationConfig.automatic 5000 200).use_templates = false ∧
    (OptimizationConfig.automatic 10000 200).use_templates = true := by
  refine ⟨by decide, by decide, by decide, by decide, by decide⟩

/-- C8 amended: under the automatic strategy the factory selector picks the
incremental engine with trivial checks for n below 500 and the fully
optimised engine (lazy addition with exponent 0.5, so b = sqrt n) for every
n from 500 up, independent of the rule counts; `OptimizationConfig::automatic`
enables incremental and trivial checks from n = 1000 and adds lazy addition
only from n = 10000; a manual engine override is always honored. -/
theorem C8_selector_amended (n rules : Nat) (gr : cnf_grammar) (t : AlgoType) :
    (n < 500 → CFReachabilityAlgoFactory.choose_algo_type n gr = AlgoType.TRIVIAL_OPT) ∧
    (500 ≤ n → CFReachabilityAlgoFactory.choose_algo_type n gr = AlgoType.FULLY_OPTIMIZED) ∧
    (CFReachabilityAlgoFactory.optimizedConfig true).lazy_add_exponent = 1 / 2 ∧
    (CFReachabilityAlgoFactory.optimizedConfig true).use_lazy_add = true ∧
    (10000 ≤ n → (OptimizationConfig.automatic n rules).use_lazy_add = true) ∧
    (1000 ≤ n → n < 10000 →
      (OptimizationConfig.automatic n rules).use_incremental = true ∧
      (OptimizationConfig.automatic n rules).use_trivial_checks = true ∧
      (OptimizationConfig.automatic n rules).use_lazy_add = false) ∧
    (t ≠ AlgoType.AUTO → CFReachabilityAlgoFactory.resolve t n gr = t) := by
  refine ⟨?_, ?_, rfl, rfl, ?_, ?_, ?_⟩
  · intro h
    simp [CFReachabilityAlgoFactory.choose_algo_type, h]
  · intro h
    simp [CFReachabilityAlgoFactory.choose_algo_type, Nat.not_lt.mpr h]
  · intro h
    have h1 : ¬ n < 1000 := by omega
    have h2 : ¬ n < 10000 := by omega
    simp [OptimizationConfig.automatic, h1, h2]
  · intro h1 h2
    have h3 : ¬ n < 1000 := by omega
    simp [OptimizationConfig.automatic, OptimizationConfig.none_, h3, h2]
  · intro h
    simp [CFReachabilityAlgoFactory.resolve, h]

/-- Witness for C8 amended at n = 600 with a manual override. -/
theorem C8_selector_amended_witness :
    (500 ≤ 600 ∧ (600 : Nat) < 10000) ∧
    CFReachabilityAlgoFactory.choose_algo_type 600 grAB = AlgoType.FULLY_OPTIMIZED ∧
    CFReachabilityAlgoFactory.resolve AlgoType.LAZY_ADD 600 grAB = AlgoType.LAZY_ADD := by
  refine ⟨by decide, ?_, ?_⟩
  · exact (C8_selector_amended 600 0 grAB AlgoType.LAZY_ADD).2.1 (by decide)
  · exact (C8_selector_amended 600 0 grAB AlgoType.LAZY_ADD).2.2.2.2.2.2 (by decide)

/-- C5: on the single graph line 0 1 a the loader specified by the claim
(and implemented by the named header label_decomposed_graph.hpp) produces
n = 2 = 1 + max vertex index and the matrix {(0,1)} under label a, while the
loader of part_000 parses the second token as the label, rejects the line
(the third token a is not a numeral), never increments its size, and ends
with no labels at all. -/
theorem C5_part000_loader_divergence :
    (ldg_load [line01a]).matrix_size = 2 ∧
    mget (ldg_load [line01a]).matrices labA = some ({(0, 1)} : Mat) ∧
    part000_scan [line01a] = (0, []) := by
  refine ⟨by decide, by decide, by decide⟩

/-! ### Lazy-set invariant lemmas (claim C4) -/

theorem mergeStep_length {l : List Mat} {i j : Nat} (hij : i < j) (hj : j < l.length)
    (x : Mat) : (((l.eraseIdx j).eraseIdx i) ++ [x]).length = l.length - 1 := by
  have h1 : (l.eraseIdx j).length = l.length - 1 := by
    rw [List.length_eraseIdx]
    simp [hj]
  have h2 : ((l.eraseIdx j).eraseIdx i).length = l.length - 2 := by
    rw [List.length_eraseIdx, h1]
    have hi : i < l.length - 1 := by omega
    simp [hi]
    omega
  simp [h2]
  omega

theorem violB_symm (b : ℚ) (A B : Mat) : violB b A B = violB b B A := by
  unfold violB
  rw [Nat.min_comm, Nat.max_comm]

theorem maintainGo_no_viol (b : ℚ) (l : List Mat) :
    (maintainGo b l).Pairwise (fun A B => violB b A B = false) := by
  generalize hn : l.length = n
  induction n using Nat.strong_induction_on generalizing l with
  | _ n ih =>
      rw [maintainGo]
      split
      · next h => exact findPairIdx_none_iff.mp h
      · next ij h =>
          rcases findPairIdx_lt h with ⟨hij, hj⟩
          have hn1 : 1 ≤ n := by omega
          exact ih (n - 1) (by omega) _ (by rw [mergeStep_length hij hj]; omega)

theorem maintainGo_members_ne (b : ℚ) (l : List Mat) (hl : ∀ m ∈ l, m ≠ ∅) :
    ∀ m ∈ maintainGo b l, m ≠ ∅ := by
  generalize hn : l.length = n
  induction n using Nat.strong_induction_on generalizing l with
  | _ n ih =>
      rw [maintainGo]
      split
      · next _ => exact hl
      · next ij h =>
          rcases findPairIdx_lt h with ⟨hij, hj⟩
          refine ih (n - 1) (by omega) _ ?_ (by rw [mergeStep_length hij hj]; omega)
          intro m hm
          rcases List.mem_append.mp hm with hm | hm
          · exact hl m ((List.eraseIdx_sublist _ _).mem ((List.eraseIdx_sublist _ _).mem hm))
          · have hm2 : m = l.getD ij.1 ∅ ∪ l.getD ij.2 ∅ := by simpa using hm
            have hmem : l.getD ij.1 ∅ ∈ l := by
              rw [List.getD_eq_getElem l ∅ (by omega)]
              exact List.getElem_mem _
            have hne1 : l.getD ij.1 ∅ ≠ ∅ := hl _ hmem
            rw [hm2]
            intro hu
            rcases Finset.union_eq_empty.mp hu with ⟨he, _⟩
            exact hne1 he

theorem maintain_invariant_props (b : ℚ) (l : List Mat) (hl : ∀ m ∈ l, m ≠ ∅) :
    (maintain_invariant b l).Pairwise (fun A B => violB b A B = false) ∧
    (∀ m ∈ maintain_invariant b l, m ≠ ∅) := by
  unfold maintain_invariant
  split
  · next hlen =>
      constructor
      · match l, hlen with
        | [], _ => exact List.Pairwise.nil
        | [m], _ => simp
      · exact hl
  · next hlen =>
      have hperm : ((maintainGo b l).mergeSort (fun A B => A.card ≤ B.card)).Perm
          (maintainGo b l) := List.mergeSort_perm _ _
      have hsymm : ∀ {x y : Mat}, violB b x y = false → violB b y x = false := by
        intro x y hxy
        rw [violB_symm]
        exact hxy
      constructor
      · exact (hperm.pairwise_iff hsymm).mpr (maintainGo_no_viol b l)
      · intro m hm
        exact maintainGo_members_ne b l hl m (hperm.mem_iff.mp hm)

theorem add_props (b : ℚ) (s : List Mat) (m : Mat)
    (hs : s.Pairwise (fun A B => violB b A B = false)) (hne : ∀ x ∈ s, x ≠ ∅) :
    (LazyMatrixSet.add b s m).Pairwise (fun A B => violB b A B = false) ∧
    (∀ x ∈ LazyMatrixSet.add b s m, x ≠ ∅) := by
  unfold LazyMatrixSet.add
  split
  · exact ⟨hs, hne⟩
  · next hcard =>
      have hm : m ≠ ∅ := by
        intro he
        rw [he] at hcard
        simp at hcard
      apply maintain_invariant_props
      intro x hx
      rcases List.mem_append.mp hx with hx | hx
      · exact hne x hx
      · have : x = m := by simpa using hx
        rw [this]
        exact hm

theorem lmsAddAll_props (b : ℚ) (ms : List Mat) :
    (lmsAddAll b ms).Pairwise (fun A B => violB b A B = false) ∧
    (∀ x ∈ lmsAddAll b ms, x ≠ ∅) := by
  unfold lmsAddAll
  suffices h : ∀ s0 : List Mat,
      s0.Pairwise (fun A B => violB b A B = false) → (∀ x ∈ s0, x ≠ ∅) →
      (ms.foldl (fun s m => LazyMatrixSet.add b s m) s0).Pairwise
        (fun A B => violB b A B = false) ∧
      (∀ x ∈ ms.foldl (fun s m => LazyMatrixSet.add b s m) s0, x ≠ ∅) by
    exact h [] List.Pairwise.nil (by intro x hx; simp at hx)
  induction ms with
  | nil => exact fun s0 h1 h2 => ⟨h1, h2⟩
  | cons m ms ih =>
      intro s0 h1 h2
      have hstep := add_props b s0 m h1 h2
      exact ih _ hstep.1 hstep.2

/-- C4: for every parameter b exceeding 1 and every sequence of add
operations starting from the empty lazy matrix set, after the adds no two
members Mi, Mj of the set satisfy b * min(nvals) >= max(nvals): the
maintenance loop merges violating pairs by element-wise OR until none
remains.  (Every member of a set reachable by adds is non-empty, so the
positivity guard of the source test cannot mask a violation.) -/
theorem C4_lms_sparsity_invariant (b : ℚ) (hb : 1 < b) (ms : List Mat) :
    (lmsAddAll b ms).Pairwise (fun A B => ¬ claimViol b A B) := by
  rcases lmsAddAll_props b ms with ⟨hp, hne⟩
  refine hp.imp_of_mem ?_
  intro A B hA hB hAB
  have hApos : 0 < A.card :=
    Finset.card_pos.mpr (Finset.nonempty_iff_ne_empty.mpr (hne A hA))
  have hBpos : 0 < B.card :=
    Finset.card_pos.mpr (Finset.nonempty_iff_ne_empty.mpr (hne B hB))
  intro hcv
  have hv : violB b A B = true := by
    unfold claimViol at hcv
    unfold violB
    simp only [Bool.and_eq_true, decide_eq_true_eq]
    exact ⟨by omega, hcv⟩
  rw [hv] at hAB
  exact Bool.noConfusion hAB

/-- Witness for C4 at b = 2 and three concrete adds. -/
theorem C4_lms_sparsity_invariant_witness :
    (1 : ℚ) < 2 ∧
    (lmsAddAll 2 [{(0, 1)}, {(1, 2)}, {(0, 1), (3, 4)}]).Pairwise
      (fun A B => ¬ claimViol 2 A B) :=
  ⟨by norm_num, C4_lms_sparsity_invariant 2 (by norm_num) _⟩

/-! ### Iteration caps (claim C7) -/

theorem incLoop_iter_le (cfg : OptimizationConfig) (gr : cnf_grammar)
    (g : label_decomposed_graph) :
    ∀ (fuel : Nat) (M delta : CFMR) (it : Nat),
      (IncrementalMatrixAlgo.loop cfg gr g fuel M delta it).2 ≤ it + fuel := by
  intro fuel
  induction fuel with
  | zero => intro M delta it; simp [IncrementalMatrixAlgo.loop]
  | succ fuel ih =>
      intro M delta it
      unfold IncrementalMatrixAlgo.loop
      split
      · omega
      · have h := ih (IncrementalMatrixAlgo.step cfg gr g M delta).1
          (IncrementalMatrixAlgo.step cfg gr g M delta).2 (it + 1)
        exact le_trans h (by omega)

theorem foaLoop_iter_le (cfg : OptimizationConfig) (gr : cnf_grammar)
    (g : label_decomposed_graph) (b : ℚ) :
    ∀ (fuel : Nat) (M delta : CFMR) (it : Nat),
      (FullyOptimizedAlgo.loop cfg gr g b fuel M delta it).2 ≤ it + fuel := by
  intro fuel
  induction fuel with
  | zero => intro M delta it; simp [FullyOptimizedAlgo.loop]
  | succ fuel ih =>
      intro M delta it
      unfold FullyOptimizedAlgo.loop
      split
      · omega
      · have h := ih (FullyOptimizedAlgo.step cfg gr g b M delta).1
          (FullyOptimizedAlgo.step cfg gr g b M delta).2 (it + 1)
        exact le_trans h (by omega)

theorem baseLoop_iter_le (gr : cnf_grammar) :
    ∀ (fuel : Nat) (M : CFMR) (it : Nat),
      (matrix_base_algo.loop gr fuel M it).2 ≤ it + fuel := by
  intro fuel
  induction fuel with
  | zero => intro M it; simp [matrix_base_algo.loop]
  | succ fuel ih =>
      intro M it
      unfold matrix_base_algo.loop
      dsimp only
      split
      · omega
      · have h := ih (union_with M (matrix_base_algo.multiply_cf_matrices gr M M [])) (it + 1)
        exact le_trans h (by omega)

theorem diagLoop_iter_le (gr : cnf_grammar) (g : label_decomposed_graph) :
    ∀ (fuel : Nat) (M : CFMR) (it : Nat),
      (OptimizedExtendedCNFAlgo.loop gr g fuel M it).2 ≤ it + fuel := by
  intro fuel
  induction fuel with
  | zero => intro M it; simp [OptimizedExtendedCNFAlgo.loop]
  | succ fuel ih =>
      intro M it
      unfold OptimizedExtendedCNFAlgo.loop
      dsimp only
      split
      · omega
      · have h := ih (OptimizedExtendedCNFAlgo.step gr g M) (it + 1)
        exact le_trans h (by omega)

/-- Counterexample for C7: the diagnostic engine caps its closure loop at 20
iterations, not 100.  On the 25-vertex chain (one t-edge, 23 u-edges) with
the grammar S to t, S to S u, the pair (0, 24) needs 23 productive
iterations; the engine as compiled (cap 20) stops after 21 iterations without
it, while the same loop allowed the claimed 100 iterations converges and
returns it. -/
theorem C7_diag_cap_counterexample :
    ((0, 24) ∉ (OptimizedExtendedCNFAlgo.solve grChain gChain).1) ∧
    ((0, 24) ∈ (OptimizedExtendedCNFAlgo.solveWithCap 100 grChain gChain).1) ∧
    (OptimizedExtendedCNFAlgo.solve grChain gChain).1 ≠
      (OptimizedExtendedCNFAlgo.solveWithCap 100 grChain gChain).1 := by
  refine ⟨by decide, by decide, ?_⟩
  intro he
  have h1 : (0, 24) ∉ (OptimizedExtendedCNFAlgo.solve grChain gChain).1 := by decide
  have h2 : (0, 24) ∈ (OptimizedExtendedCNFAlgo.solveWithCap 100 grChain gChain).1 := by
    decide
  rw [he] at h1
  exact h1 h2

/-- C7 amended: every engine returns the current start slot instead of
failing when its loop is cut off, and the loops are bounded: the incremental,
fully optimised and base engines execute at most 101 iterations (the source
cap of 100 plus the final check), the diagnostic engine at most 21 (its
source cap is 20, not the claimed 100). -/
theorem C7_iteration_caps (cfg : OptimizationConfig) (gr : cnf_grammar)
    (g : label_decomposed_graph) (b : ℚ) :
    (IncrementalMatrixAlgo.solve cfg gr g).2 ≤ 101 ∧
    (FullyOptimizedAlgo.solve cfg gr g b).2 ≤ 101 ∧
    (matrix_base_algo.solve gr g).2 ≤ 101 ∧
    (OptimizedExtendedCNFAlgo.solve gr g).2 ≤ 21 := by
  refine ⟨?_, ?_, ?_, ?_⟩
  · have := incLoop_iter_le cfg gr g 101 [] (IncrementalMatrixAlgo.initDelta cfg gr g) 0
    simpa [IncrementalMatrixAlgo.solve] using this
  · have := foaLoop_iter_le cfg gr g b 101 [] (FullyOptimizedAlgo.initDelta cfg gr g b) 0
    simpa [FullyOptimizedAlgo.solve] using this
  · have := baseLoop_iter_le gr 101
      (IncrementalMatrixAlgo.initEpsilon gr g.matrix_size
        (IncrementalMatrixAlgo.initSimple gr g [])) 0
    simpa [matrix_base_algo.solve] using this
  · have := diagLoop_iter_le gr g 21
      (IncrementalMatrixAlgo.initEpsilon gr g.matrix_size
        (IncrementalMatrixAlgo.initSimple gr g [])) 0
    simpa [OptimizedExtendedCNFAlgo.solve, OptimizedExtendedCNFAlgo.solveWithCap] using this

/-! ### Heap frame lemmas (claim C6) -/

theorem hread_append {h : Heap} {i : Nat} (m : Mat) (hi : i < h.length) :
    hread (h ++ [m]) i = hread h i := by
  unfold hread
  exact List.getD_append h [m] ∅ i hi

theorem hread_set_ne {h : Heap} {i j : Nat} (m : Mat) (hne : j ≠ i) :
    hread (hwrite h i m) j = hread h j := by
  unfold hread hwrite
  rw [List.getD_eq_getElem?_getD, List.getD_eq_getElem?_getD,
    List.getElem?_set_ne (Ne.symm hne)]

theorem mget_mem {α : Type} : ∀ {m : SAL α} {k : Lab} {v : α},
    mget m k = some v → (k, v) ∈ m
  | [], _, _, h => by simp [mget] at h
  | kv :: t, k, v, h => by
      by_cases hk : k = kv.1
      · simp only [mget, if_pos hk, Option.some.injEq] at h
        subst hk
        subst h
        exact List.mem_cons_self _ _
      · simp only [mget, if_neg hk] at h
        exact List.mem_cons_of_mem _ (mget_mem h)

namespace matrix_base_algo2

/-- State invariant of the frame proof: the heap only grew past the original
length, every member handle points past the original heap, and every
original heap cell is untouched. -/
def Inv (h0 : Heap) (st : St) : Prop :=
  h0.length ≤ st.1.length ∧ (∀ kv ∈ st.2, h0.length ≤ kv.2) ∧
    ∀ i < h0.length, hread st.1 i = hread h0 i

theorem Inv.write {h0 : Heap} {st : St} (hv : Inv h0 st) {i : Nat}
    (hi : h0.length ≤ i) (m : Mat) : Inv h0 (hwrite st.1 i m, st.2) := by
  refine ⟨?_, hv.2.1, ?_⟩
  · have := hv.1
    simpa [hwrite] using this
  · intro j hj
    rw [hread_set_ne m (by omega)]
    exact hv.2.2 j hj

theorem Inv.alloc {h0 : Heap} {st : St} (hv : Inv h0 st) (m : Mat) :
    Inv h0 (st.1 ++ [m], st.2) := by
  have hlen := hv.1
  refine ⟨?_, hv.2.1, ?_⟩
  · simp
    omega
  · intro j hj
    rw [hread_append m (by omega)]
    exact hv.2.2 j hj

theorem Inv.msetMember {h0 : Heap} {h : Heap} {m : SAL Nat} {k : Lab} {hd : Nat}
    (hv : Inv h0 (h, m)) (hhd : h0.length ≤ hd) : Inv h0 (h, mset m k hd) := by
  refine ⟨hv.1, ?_, hv.2.2⟩
  intro kv hkv
  rcases mem_mset hkv with hkv | hkv
  · rw [hkv]
    exact hhd
  · exact hv.2.1 kv hkv

theorem ensureKey_inv {h0 : Heap} {st : St} (hv : Inv h0 st) (k : Lab) :
    Inv h0 (ensureKey st k) := by
  unfold ensureKey
  split
  · exact hv
  · have hlen : h0.length ≤ st.1.length := hv.1
    have h1 : Inv h0 (st.1 ++ [∅] ++ [∅], st.2) := (hv.alloc ∅).alloc ∅
    have hhd : h0.length ≤ (st.1 ++ [∅]).length := by
      simp
      omega
    exact h1.msetMember hhd

theorem ensureKey_get (st : St) (k : Lab) :
    ∃ hd, mget (ensureKey st k).2 k = some hd := by
  unfold ensureKey
  split
  · next hd hg => exact ⟨hd, hg⟩
  · exact ⟨_, mget_mset_self _ _ _⟩

theorem keyH_ge {h0 : Heap} {st : St} (hv : Inv h0 st) {k : Lab}
    (hg : ∃ hd, mget st.2 k = some hd) : h0.length ≤ keyH st k := by
  rcases hg with ⟨hd, hg⟩
  have := hv.2.1 _ (mget_mem hg)
  simpa [keyH, hg] using this

theorem epsFold_inv {h0 : Heap} (idh : Nat) :
    ∀ (rules : List Lab) (st1 : St), Inv h0 st1 →
      Inv h0 (rules.foldl
        (fun st left =>
          let st2 := ensureKey st left
          let hdl := keyH st2 left
          (hwrite st2.1 hdl (hread st2.1 idh ∪ hread st2.1 hdl), st2.2)) st1) := by
  intro rules
  induction rules with
  | nil => exact fun st1 hv => hv
  | cons left rest ih =>
      intro st1 hv
      simp only [List.foldl_cons]
      refine ih _ ?_
      have h1 : Inv h0 (ensureKey st1 left) := ensureKey_inv hv left
      have h2 : h0.length ≤ keyH (ensureKey st1 left) left :=
        keyH_ge h1 (ensureKey_get st1 left)
      exact h1.write h2 _

theorem epsPhase_inv {h0 : Heap} {st0 : St} (hv : Inv h0 st0)
    (gr : cnf_grammar) (n : Nat) : Inv h0 (epsPhase gr n st0) := by
  unfold epsPhase
  exact epsFold_inv (halloc st0.1 (identityMat n)).2 gr.epsilon_rules
    ((halloc st0.1 (identityMat n)).1, st0.2) (hv.alloc _)

theorem simplePhase_inv {h0 : Heap} {st0 : St} (hv : Inv h0 st0)
    (gr : cnf_grammar) : Inv h0 (simplePhase gr st0) := by
  unfold simplePhase
  induction gr.simple_rules generalizing st0 with
  | nil => exact hv
  | cons r rest ih =>
      simp only [List.foldl_cons]
      refine ih ?_
      have h1 : Inv h0 (ensureKey (ensureKey st0 r.1) r.2) :=
        ensureKey_inv (ensureKey_inv hv r.1) r.2
      have hi1 : h0.length ≤ (ensureKey (ensureKey st0 r.1) r.2).1.length := h1.1
      exact ((h1.alloc ∅).write hi1 _).msetMember hi1

theorem coreRule_inv {h0 : Heap} {st : St} (hv : Inv h0 st)
    (r : Lab × Lab × Lab) : Inv h0 (coreRule st r) := by
  unfold coreRule
  have h1 : Inv h0 (ensureKey (ensureKey (ensureKey st r.1) r.2.1) r.2.2) :=
    ensureKey_inv (ensureKey_inv (ensureKey_inv hv r.1) r.2.1) r.2.2
  have hl : h0.length ≤ (ensureKey (ensureKey (ensureKey st r.1) r.2.1) r.2.2).1.length :=
    h1.1
  have hl2 : h0.length ≤
      ((ensureKey (ensureKey (ensureKey st r.1) r.2.1) r.2.2).1 ++ [∅]).length := by
    simp
    omega
  exact ((((h1.alloc ∅).alloc ∅).write hl _).write hl2 _).msetMember hl2

theorem corePass_inv {h0 : Heap} {st : St} (hv : Inv h0 st)
    (gr : cnf_grammar) : Inv h0 (corePass gr st) := by
  unfold corePass
  induction gr.complex_rules generalizing st with
  | nil => exact hv
  | cons r rest ih =>
      simp only [List.foldl_cons]
      exact ih (coreRule_inv hv r)

theorem coreLoop_inv {h0 : Heap} (gr : cnf_grammar) :
    ∀ (fuel : Nat) {st : St}, Inv h0 st → Inv h0 (coreLoop gr fuel st)
  | 0, _, hv => hv
  | fuel + 1, st, hv => coreLoop_inv gr fuel (corePass_inv hv gr)

theorem ldgCopy_inv (h0 : Heap) (g : HLDG) :
    Inv h0 ((ldgCopy h0 g).1, (ldgCopy h0 g).2.matrices) := by
  unfold ldgCopy
  suffices hgen : ∀ (l : List (Lab × Nat)) (st : Heap × SAL Nat), Inv h0 st →
      Inv h0 (l.foldl
        (fun st kv =>
          let al := halloc st.1 (hread st.1 kv.2)
          (al.1, mset st.2 kv.1 al.2)) st) by
    exact hgen g.matrices (h0, [])
      ⟨le_refl _, (by intro kv hkv; simp at hkv), (by intro i _; rfl)⟩
  intro l
  induction l with
  | nil => intro st hv; exact hv
  | cons kv rest ih =>
      intro st hv
      simp only [List.foldl_cons]
      refine ih _ ?_
      have h1 := hv.alloc (hread st.1 kv.2)
      exact h1.msetMember hv.1

end matrix_base_algo2

/-- Caller heap graph: one matrix at handle 0. -/
def hg0 : HLDG := { matrix_size := 2, matrices := [(labA, 0)] }

/-- Heap holding that one matrix. -/
def heap0 : Heap := [{(0, 1)}]

/-- C6: a call to solve leaves the input label-decomposed graph unchanged.
The second `matrix_base_algo::solve` is the engine that mutates per-label
matrices in place; it operates on the member graph built by the duplicate
copy constructor, so for every label of the caller's graph the matrix behind
the caller's handle holds the same TRUE pairs after the call, and the
caller's label map itself is never touched by the engine.  (The incremental
engine only ever reads `graph.matrices`, as its embedding
`IncrementalMatrixAlgo.solve` shows: the graph is an unmodified argument.) -/
theorem C6_solve_preserves_caller_graph (gr : cnf_grammar) (n fuel : Nat)
    (h0 : Heap) (g : HLDG) (hvalid : ∀ kv ∈ g.matrices, kv.2 < h0.length) :
    ∀ kv ∈ g.matrices,
      hread (matrix_base_algo2.solveH gr n fuel h0 g).1 kv.2 = hread h0 kv.2 := by
  intro kv hkv
  have hinv : matrix_base_algo2.Inv h0
      ((ldgCopy h0 g).1, (ldgCopy h0 g).2.matrices) := matrix_base_algo2.ldgCopy_inv h0 g
  have h1 := matrix_base_algo2.epsPhase_inv hinv gr n
  have h2 := matrix_base_algo2.simplePhase_inv h1 gr
  have h3 := matrix_base_algo2.coreLoop_inv gr fuel h2
  have h4 := matrix_base_algo2.ensureKey_inv h3 gr.start_nonterm
  exact h4.2.2 kv.2 (hvalid kv hkv)

/-- Witness for C6 at a one-label caller graph with a valid handle. -/
theorem C6_solve_preserves_caller_graph_witness :
    (∀ kv ∈ hg0.matrices, kv.2 < heap0.length) ∧
    ∀ kv ∈ hg0.matrices,
      hread (matrix_base_algo2.solveH grAB 2 1 heap0 hg0).1 kv.2 = hread heap0 kv.2 :=
  ⟨by decide, C6_solve_preserves_caller_graph grAB 2 1 heap0 hg0 (by decide)⟩

/-! ### Contribution-list normal form for the product phases (claim C1)

Every product phase of the incremental and the fully optimised engines ORs a
sequence of keyed products into an accumulator through the `get_or_create`
pattern.  The phases are proved equal by reducing both to `runC` over the
same configuration-independent contribution list. -/

/-- A present key holds a non-empty matrix, so the `is_empty` trivial check
on it is false under every configuration. -/
theorem has_not_isEmpty {m : CFMR} {k : Lab} (h : CFMR.has m k = true)
    (cfg : OptimizationConfig) : is_empty cfg (mgetD m k ∅) = false := by
  have hne : mgetD m k ∅ ≠ ∅ := by simpa [CFMR.has] using h
  simp [is_empty, hne]

/-- Lookup through one accumulation step. -/
theorem mget_accP (res : CFMR) (X : Lab) (p : Mat) (k : Lab) :
    mget (accP res X p) k =
      if p = ∅ then mget res k
      else if k = X then some (mgetD res X ∅ ∪ p) else mget res k := by
  unfold accP
  by_cases hp : p = ∅
  · simp [hp]
  · by_cases hk : k = X
    · subst hk
      simp [hp, mget_mset_self]
    · simp [hp, hk, mget_mset_ne _ _ _ _ hk]

theorem accP_sorted {res : CFMR} (hs : SALSorted res) (X : Lab) (p : Mat) :
    SALSorted (accP res X p) := by
  unfold accP
  split
  · exact hs
  · exact hs.mset X _

/-- A keyed list of products to accumulate. -/
abbrev Contribs := List (Lab × Mat)

/-- Accumulate the contributions in order. -/
def runC (d : CFMR) (cs : Contribs) : CFMR :=
  cs.foldl (fun acc c => accP acc c.1 c.2) d

theorem runC_append (d : CFMR) (a b : Contribs) :
    runC d (a ++ b) = runC (runC d a) b :=
  List.foldl_append _ _ _ _

theorem runC_sorted {d : CFMR} (hs : SALSorted d) (cs : Contribs) :
    SALSorted (runC d cs) := by
  induction cs generalizing d with
  | nil => exact hs
  | cons c cs ih => exact ih (accP_sorted hs c.1 c.2)

/-- Union of the contributions carried by one key. -/
def contribU (k : Lab) : Contribs → Mat
  | [] => ∅
  | c :: cs => if c.1 = k then c.2 ∪ contribU k cs else contribU k cs

/-- Some contribution at the key is non-empty (exactly when the accumulation
creates or grows the slot of the key). -/
def csHas (k : Lab) (cs : Contribs) : Bool :=
  cs.any (fun c => decide (c.1 = k) && decide (c.2 ≠ ∅))

theorem contribU_of_not_csHas {k : Lab} {cs : Contribs} (h : csHas k cs = false) :
    contribU k cs = ∅ := by
  induction cs with
  | nil => rfl
  | cons c cs ih =>
      simp only [csHas, List.any_cons, Bool.or_eq_false_iff] at h
      rcases h with ⟨h1, h2⟩
      have ih2 : contribU k cs = ∅ := ih h2
      by_cases hk : c.1 = k
      · by_cases hc : c.2 = ∅
        · simp [contribU, hk, hc, ih2]
        · rw [hk] at h1
          simp [hc] at h1
      · simp [contribU, hk, ih2]

theorem mget_eq_none_of_not_key {α : Type} : ∀ {m : SAL α} {k : Lab},
    (∀ kv ∈ m, k ≠ kv.1) → mget m k = none
  | [], _, _ => rfl
  | kv :: t, k, h => by
      have h1 : k ≠ kv.1 := h kv (List.mem_cons_self _ _)
      simp only [mget, if_neg h1]
      exact mget_eq_none_of_not_key (fun kv2 h2 => h kv2 (List.mem_cons_of_mem _ h2))

/-- Lookup after a whole accumulation run: the slot of the key grows by the
union of the contributions at the key, and is created exactly when some such
contribution is non-empty. -/
theorem mget_runC : ∀ (cs : Contribs) (d : CFMR) (k : Lab),
    mget (runC d cs) k =
      if csHas k cs = true then some (mgetD d k ∅ ∪ contribU k cs) else mget d k
  | [], d, k => by simp [runC, csHas]
  | c :: cs, d, k => by
      have ih := mget_runC cs (accP d c.1 c.2) k
      have hany : csHas k (c :: cs) =
          ((decide (c.1 = k) && decide (c.2 ≠ ∅)) || csHas k cs) := by
        simp only [csHas, List.any_cons]
      rw [show runC d (c :: cs) = runC (accP d c.1 c.2) cs from rfl, ih]
      by_cases hc : c.2 = ∅
      · have ha : accP d c.1 c.2 = d := by simp [accP, hc]
        have hhead : (decide (c.1 = k) && decide (c.2 ≠ ∅)) = false := by simp [hc]
        have hcs : csHas k (c :: cs) = csHas k cs := by
          rw [hany, hhead, Bool.false_or]
        rw [ha, hcs]
        by_cases hk : c.1 = k
        · have hcu : contribU k (c :: cs) = contribU k cs := by
            simp [contribU, hk, hc]
          rw [hcu]
        · have hcu : contribU k (c :: cs) = contribU k cs := by
            simp [contribU, hk]
          rw [hcu]
      · by_cases hk : c.1 = k
        · subst hk
          have hhead : (decide (c.1 = c.1) && decide (c.2 ≠ ∅)) = true := by simp [hc]
          have hcs : csHas c.1 (c :: cs) = true := by
            rw [hany, hhead, Bool.true_or]
          rw [hcs]
          have hval : mget (accP d c.1 c.2) c.1 = some (mgetD d c.1 ∅ ∪ c.2) := by
            rw [mget_accP]
            simp [hc]
          have hvalD : mgetD (accP d c.1 c.2) c.1 ∅ = mgetD d c.1 ∅ ∪ c.2 := by
            simp [mgetD, hval]
          have hcu : contribU c.1 (c :: cs) = c.2 ∪ contribU c.1 cs := by
            simp [contribU]
          rw [hcu]
          by_cases hcsr : csHas c.1 cs = true
          · rw [if_pos hcsr, if_pos rfl, hvalD, Finset.union_assoc]
          · rw [if_neg hcsr, if_pos rfl, hval]
            have hz : contribU c.1 cs = ∅ :=
              contribU_of_not_csHas (eq_false_of_ne_true hcsr)
            rw [hz, Finset.union_empty]
        · have hhead : (decide (c.1 = k) && decide (c.2 ≠ ∅)) = false := by simp [hk]
          have hcs : csHas k (c :: cs) = csHas k cs := by
            rw [hany, hhead, Bool.false_or]
          have hcu : contribU k (c :: cs) = contribU k cs := by
            simp [contribU, hk]
          have hkc : k ≠ c.1 := fun he => hk he.symm
          have hm1 : mget (accP d c.1 c.2) k = mget d k := by
            rw [mget_accP, if_neg hc, if_neg hkc]
          have hm2 : mgetD (accP d c.1 c.2) k ∅ = mgetD d k ∅ := by
            simp [mgetD, hm1]
          rw [hcs, hcu, hm1, hm2]

/-- Lookup through `union_with` when the other map has pairwise distinct
keys. -/
theorem mget_union_with : ∀ (other d : CFMR) (k : Lab),
    (other.map Prod.fst).Nodup →
    mget (union_with d other) k =
      match mget other k with
      | none => mget d k
      | some v => some (mgetD d k ∅ ∪ v)
  | [], _, _, _ => rfl
  | kv :: rest, d, k, hnd => by
      have hndc : (kv.1 :: rest.map Prod.fst).Nodup := by simpa using hnd
      have hnd0 := List.nodup_cons.mp hndc
      have hnd2 : (rest.map Prod.fst).Nodup := hnd0.2
      have hnotmem : kv.1 ∉ rest.map Prod.fst := hnd0.1
      have ih := mget_union_with rest (mset d kv.1 (mgetD d kv.1 ∅ ∪ kv.2)) k hnd2
      rw [show union_with d (kv :: rest) =
          union_with (mset d kv.1 (mgetD d kv.1 ∅ ∪ kv.2)) rest from rfl, ih]
      by_cases hk : k = kv.1
      · subst hk
        have hrest : mget rest kv.1 = none := by
          apply mget_eq_none_of_not_key
          intro kv2 h2 he
          exact hnotmem (he ▸ List.mem_map_of_mem Prod.fst h2)
        have hhd : mget (kv :: rest) kv.1 = some kv.2 := by simp [mget]
        rw [hrest, hhd]
        exact mget_mset_self _ _ _
      · have hhd : mget (kv :: rest) k = mget rest k := by simp [mget, hk]
        rw [hhd]
        have hm1 : mget (mset d kv.1 (mgetD d kv.1 ∅ ∪ kv.2)) k = mget d k :=
          mget_mset_ne _ _ _ _ hk
        have hm2 : mgetD (mset d kv.1 (mgetD d kv.1 ∅ ∪ kv.2)) k ∅ = mgetD d k ∅ :=
          congrArg (fun o => o.getD ∅) hm1
        rcases hrk : mget rest k with _ | v
        · exact hm1
        · exact congrArg (fun x => some (x ∪ v)) hm2

theorem union_with_sorted {d : CFMR} (hs : SALSorted d) (other : CFMR) :
    SALSorted (union_with d other) := by
  induction other generalizing d with
  | nil => exact hs
  | cons kv rest ih => exact ih (hs.mset kv.1 _)

/-- Generic sortedness of an accumulator fold whose step preserves
sortedness. -/
theorem foldl_sorted {β : Type} {f : CFMR → β → CFMR}
    (hf : ∀ res x, SALSorted res → SALSorted (f res x)) :
    ∀ (l : List β) {res0 : CFMR}, SALSorted res0 → SALSorted (l.foldl f res0)
  | [], _, h => h
  | x :: xs, res0, h => foldl_sorted hf xs (hf res0 x h)

/-- Keys pairwise distinct in a sorted association list. -/
theorem sorted_keys_nodup {α : Type} {m : SAL α} (hs : SALSorted m) :
    (m.map Prod.fst).Nodup := by
  have h : (m.map Prod.fst).Pairwise (fun a b => a ≠ b) := by
    rw [List.pairwise_map]
    exact hs.imp (fun h => labLt_ne h)
  exact h

theorem initSimple_sorted (gr : cnf_grammar) (g : label_decomposed_graph)
    {d0 : CFMR} (hs : SALSorted d0) :
    SALSorted (IncrementalMatrixAlgo.initSimple gr g d0) := by
  refine foldl_sorted ?_ _ hs
  intro res r h
  rcases hg : gfind g r.2 with _ | gm
  · simpa [hg] using h
  · simp only [hg]
    split
    · exact h.mset _ _
    · exact h

theorem initEpsilon_sorted (gr : cnf_grammar) (n : Nat) {d0 : CFMR}
    (hs : SALSorted d0) : SALSorted (IncrementalMatrixAlgo.initEpsilon gr n d0) :=
  foldl_sorted (fun res a h => h.mset a _) _ hs

/-! ### The union carried by a lazy matrix set (claim C1) -/

theorem foldl_union_eq : ∀ (s : List Mat) (a : Mat),
    s.foldl (fun acc x => acc ∪ x) a = a ∪ lmsU s
  | [], a => by simp [lmsU]
  | m :: rest, a => by
      rw [show (m :: rest).foldl (fun acc x => acc ∪ x) a =
          rest.foldl (fun acc x => acc ∪ x) (a ∪ m) from rfl,
        foldl_union_eq rest (a ∪ m),
        show lmsU (m :: rest) = rest.foldl (fun acc x => acc ∪ x) (∅ ∪ m) from rfl,
        foldl_union_eq rest (∅ ∪ m), Finset.empty_union, Finset.union_assoc]

theorem lmsU_cons (m : Mat) (s : List Mat) : lmsU (m :: s) = m ∪ lmsU s := by
  rw [show lmsU (m :: s) = s.foldl (fun acc x => acc ∪ x) (∅ ∪ m) from rfl,
    foldl_union_eq, Finset.empty_union]

theorem lmsU_append (s t : List Mat) : lmsU (s ++ t) = lmsU s ∪ lmsU t := by
  have h : lmsU (s ++ t) = t.foldl (fun acc x => acc ∪ x) (lmsU s) := by
    simp only [lmsU, List.foldl_append]
  rw [h, foldl_union_eq]

theorem lmsU_perm {l l2 : List Mat} (p : l.Perm l2) : lmsU l = lmsU l2 := by
  induction p with
  | nil => rfl
  | cons x _ ih => rw [lmsU_cons, lmsU_cons, ih]
  | swap x y l =>
      rw [lmsU_cons, lmsU_cons, lmsU_cons, lmsU_cons,
        ← Finset.union_assoc, ← Finset.union_assoc, Finset.union_comm y x]
  | trans _ _ ih1 ih2 => rw [ih1, ih2]

/-- `materialize` returns exactly the union of the members. -/
theorem materialize_eq_lmsU : ∀ (s : List Mat), LazyMatrixSet.materialize s = lmsU s
  | [] => rfl
  | m :: rest => by
      rw [show LazyMatrixSet.materialize (m :: rest) =
          rest.foldl (fun acc x => acc ∪ x) m from rfl, foldl_union_eq, lmsU_cons]

theorem getD_eraseIdx_of_lt : ∀ (l : List Mat) (i j : Nat), i < j →
    (l.eraseIdx j).getD i ∅ = l.getD i ∅
  | [], _, _, _ => rfl
  | a :: tl, i, 0, h => absurd h (Nat.not_lt_zero i)
  | a :: tl, 0, j + 1, _ => by simp [List.eraseIdx]
  | a :: tl, i + 1, j + 1, h => by
      simp only [List.eraseIdx, List.getD_cons_succ]
      exact getD_eraseIdx_of_lt tl i j (by omega)

/-- Any member at a valid offset can be moved to the head by a
permutation. -/
theorem eraseIdx_cons_perm : ∀ (l : List Mat) (i : Nat), i < l.length →
    l.Perm (l.getD i ∅ :: l.eraseIdx i)
  | a :: tl, 0, _ => by simp [List.eraseIdx]
  | a :: tl, i + 1, h => by
      have hi : i < tl.length := by simpa using h
      have ih := eraseIdx_cons_perm tl i hi
      simp only [List.eraseIdx, List.getD_cons_succ]
      exact (ih.cons a).trans (List.Perm.swap _ _ _)

theorem mergeStep_perm (l : List Mat) (i j : Nat) (hij : i < j) (hj : j < l.length) :
    l.Perm (l.getD j ∅ :: l.getD i ∅ :: (l.eraseIdx j).eraseIdx i) := by
  have h1 : l.Perm (l.getD j ∅ :: l.eraseIdx j) := eraseIdx_cons_perm l j hj
  have hi : i < (l.eraseIdx j).length := by
    rw [List.length_eraseIdx]
    simp only [hj, if_true]
    omega
  have h2 := eraseIdx_cons_perm (l.eraseIdx j) i hi
  rw [getD_eraseIdx_of_lt l i j hij] at h2
  exact h1.trans (h2.cons _)

theorem lmsU_mergeStep (l : List Mat) (i j : Nat) (hij : i < j) (hj : j < l.length) :
    lmsU (((l.eraseIdx j).eraseIdx i) ++ [l.getD i ∅ ∪ l.getD j ∅]) = lmsU l := by
  have hR : lmsU (l.getD j ∅ :: l.getD i ∅ :: (l.eraseIdx j).eraseIdx i)
      = l.getD j ∅ ∪ (l.getD i ∅ ∪ lmsU ((l.eraseIdx j).eraseIdx i)) := by
    rw [lmsU_cons, lmsU_cons]
  have h1 : lmsU [l.getD i ∅ ∪ l.getD j ∅] = l.getD i ∅ ∪ l.getD j ∅ := by
    rw [lmsU_cons]
    simp [lmsU]
  rw [lmsU_append, h1, lmsU_perm (mergeStep_perm l i j hij hj), hR]
  ext x
  simp only [Finset.mem_union]
  tauto

/-- The merge loop of `maintain_invariant` never changes the union of the
members. -/
theorem lmsU_maintainGo (b : ℚ) (l : List Mat) : lmsU (maintainGo b l) = lmsU l := by
  generalize hn : l.length = n
  induction n using Nat.strong_induction_on generalizing l with
  | _ n ih =>
      rw [maintainGo]
      split
      · rfl
      · next ij h =>
          rcases findPairIdx_lt h with ⟨hij, hj⟩
          have hrec := ih (n - 1) (by omega)
            (((l.eraseIdx ij.2).eraseIdx ij.1) ++ [l.getD ij.1 ∅ ∪ l.getD ij.2 ∅])
            (by rw [mergeStep_length hij hj]; omega)
          rw [hrec]
          exact lmsU_mergeStep l ij.1 ij.2 hij hj

theorem maintainGo_ne_nil (b : ℚ) (l : List Mat) (hl : l ≠ []) :
    maintainGo b l ≠ [] := by
  generalize hn : l.length = n
  induction n using Nat.strong_induction_on generalizing l with
  | _ n ih =>
      rw [maintainGo]
      split
      · exact hl
      · next ij h =>
          rcases findPairIdx_lt h with ⟨hij, hj⟩
          refine ih (n - 1) (by omega) _ ?_ (by rw [mergeStep_length hij hj]; omega)
          simp

/-- `LazyMatrixSet::add` grows the union of the members by exactly the added
matrix. -/
theorem lmsU_add (b : ℚ) (s : List Mat) (m : Mat) :
    lmsU (LazyMatrixSet.add b s m) = lmsU s ∪ m := by
  unfold LazyMatrixSet.add
  by_cases hm : m.card = 0
  · have hme : m = ∅ := Finset.card_eq_zero.mp hm
    rw [if_pos hm, hme, Finset.union_empty]
  · rw [if_neg hm]
    unfold maintain_invariant
    have htail : lmsU (s ++ [m]) = lmsU s ∪ m := by
      rw [lmsU_append]
      simp [lmsU]
    by_cases hlen : (s ++ [m]).length ≤ 1
    · rw [if_pos hlen]
      exact htail
    · rw [if_neg hlen]
      rw [lmsU_perm (List.mergeSort_perm _ _), lmsU_maintainGo, htail]

/-- Adding a non-empty matrix leaves the set non-empty. -/
theorem add_ne_nil (b : ℚ) (s : List Mat) (m : Mat) (hm : m ≠ ∅) :
    LazyMatrixSet.add b s m ≠ [] := by
  unfold LazyMatrixSet.add
  have hcard : ¬ m.card = 0 := fun h => hm (Finset.card_eq_zero.mp h)
  rw [if_neg hcard]
  unfold maintain_invariant
  by_cases hlen : (s ++ [m]).length ≤ 1
  · rw [if_pos hlen]
    simp
  · rw [if_neg hlen]
    intro hmerge
    have hp := List.mergeSort_perm (maintainGo b (s ++ [m])) (fun A B => A.card ≤ B.card)
    rw [hmerge] at hp
    exact maintainGo_ne_nil b (s ++ [m]) (by simp) hp.nil_eq.symm

/-! ### Materialising a lazy representation (claim C1) -/

theorem isEmpty_false_of_ne_nil {α : Type} {l : List α} (h : l ≠ []) :
    l.isEmpty = false := by
  cases l
  · exact absurd rfl h
  · rfl

/-- The collection step of `to_normal`. -/
def collectStep (res : CFMR) (kv : Lab × List Mat) : CFMR :=
  if kv.2.isEmpty then res else mset res kv.1 (LazyMatrixSet.materialize kv.2)

theorem collect_sorted (l : SAL (List Mat)) {res0 : CFMR} (hs : SALSorted res0) :
    SALSorted (l.foldl collectStep res0) := by
  refine foldl_sorted ?_ _ hs
  intro res kv h
  unfold collectStep
  split
  · exact h
  · exact h.mset _ _

theorem to_normal_sorted (L : LazyCFMatrixRepresentation) : SALSorted L.to_normal :=
  collect_sorted L.lazy_matrices SALSorted.nil

/-- Lookup of a member entry in a sorted association list. -/
theorem mget_of_mem_sorted {α : Type} : ∀ {m : SAL α} {kv : Lab × α},
    SALSorted m → kv ∈ m → mget m kv.1 = some kv.2
  | [], _, _, hmem => by simp at hmem
  | a :: tl, kv, hs, hmem => by
      rcases List.pairwise_cons.mp hs with ⟨hhead, htail⟩
      rcases List.mem_cons.mp hmem with h | h
      · subst h
        simp [mget]
      · have hne : kv.1 ≠ a.1 := fun he => (labLt_ne (hhead kv h)) he.symm
        simp only [mget, if_neg hne]
        exact mget_of_mem_sorted htail h

/-- Lookup through the collection fold of `to_normal` when the lazy map has
pairwise distinct keys. -/
theorem mget_collect : ∀ (l : SAL (List Mat)) (res0 : CFMR) (k : Lab),
    (l.map Prod.fst).Nodup →
    mget (l.foldl collectStep res0) k =
      match mget l k with
      | none => mget res0 k
      | some s => if s.isEmpty then mget res0 k else some (LazyMatrixSet.materialize s)
  | [], _, _, _ => rfl
  | kv :: rest, res0, k, hnd => by
      have hndc : (kv.1 :: rest.map Prod.fst).Nodup := by simpa using hnd
      have hnd0 := List.nodup_cons.mp hndc
      have ih := mget_collect rest (collectStep res0 kv) k hnd0.2
      rw [show (kv :: rest).foldl collectStep res0 =
          rest.foldl collectStep (collectStep res0 kv) from rfl, ih]
      by_cases hk : k = kv.1
      · subst hk
        have hrest : mget rest kv.1 = none := by
          apply mget_eq_none_of_not_key
          intro kv2 h2 he
          exact hnd0.1 (he ▸ List.mem_map_of_mem Prod.fst h2)
        have hhd : mget (kv :: rest) kv.1 = some kv.2 := by simp [mget]
        rw [hrest, hhd]
        show mget (collectStep res0 kv) kv.1 =
          if kv.2.isEmpty then mget res0 kv.1 else some (LazyMatrixSet.materialize kv.2)
        unfold collectStep
        by_cases he : kv.2.isEmpty = true
        · rw [if_pos he, if_pos he]
        · rw [if_neg he, if_neg he, mget_mset_self]
      · have hhd : mget (kv :: rest) k = mget rest k := by simp [mget, hk]
        have hm1 : mget (collectStep res0 kv) k = mget res0 k := by
          unfold collectStep
          split
          · rfl
          · exact mget_mset_ne _ _ _ _ hk
        rw [hhd]
        rcases hrk : mget rest k with _ | s
        · exact hm1
        · show (if s.isEmpty then mget (collectStep res0 kv) k
              else some (LazyMatrixSet.materialize s)) =
            if s.isEmpty then mget res0 k else some (LazyMatrixSet.materialize s)
          by_cases hse : s.isEmpty = true
          · rw [if_pos hse, if_pos hse]
            exact hm1
          · rw [if_neg hse, if_neg hse]

/-- `to_normal` lookup: a label maps to the materialised value of its lazy
set, with empty sets skipped. -/
theorem mget_to_normal (L : LazyCFMatrixRepresentation)
    (hnd : (L.lazy_matrices.map Prod.fst).Nodup) (k : Lab) :
    mget L.to_normal k =
      match mget L.lazy_matrices k with
      | none => none
      | some s => if s.isEmpty then none else some (LazyMatrixSet.materialize s) :=
  mget_collect L.lazy_matrices [] k hnd

theorem mget_to_normal_none (L : LazyCFMatrixRepresentation)
    (hnd : (L.lazy_matrices.map Prod.fst).Nodup) (k : Lab)
    (hx : mget L.lazy_matrices k = none) : mget L.to_normal k = none := by
  rw [mget_to_normal L hnd k, hx]

theorem mget_to_normal_some (L : LazyCFMatrixRepresentation)
    (hnd : (L.lazy_matrices.map Prod.fst).Nodup) (k : Lab) (s : List Mat)
    (hx : mget L.lazy_matrices k = some s) :
    mget L.to_normal k =
      if s.isEmpty then none else some (LazyMatrixSet.materialize s) := by
  rw [mget_to_normal L hnd k, hx]

/-- The default lookup through `to_normal` is the union of the lazy slot. -/
theorem mgetD_to_normal (L : LazyCFMatrixRepresentation)
    (hnd : (L.lazy_matrices.map Prod.fst).Nodup) (k : Lab) :
    mgetD L.to_normal k ∅ = lmsU (mgetD L.lazy_matrices k []) := by
  rcases hx : mget L.lazy_matrices k with _ | s
  · have h2 := mget_to_normal_none L hnd k hx
    simp only [mgetD, h2, hx]
    rfl
  · have h2 := mget_to_normal_some L hnd k s hx
    by_cases hse : s.isEmpty = true
    · have hsnil : s = [] := by
        cases s
        · rfl
        · simp at hse
      rw [if_pos hse] at h2
      simp only [mgetD, h2, hx, hsnil]
      rfl
    · rw [if_neg hse] at h2
      simp only [mgetD, h2, hx, materialize_eq_lmsU]
      rfl

/-- Adding to a lazy slot then materialising equals the direct accumulation
of the incremental engine. -/
theorem to_normal_add (L : LazyCFMatrixRepresentation) (X : Lab) (m : Mat)
    (hs : SALSorted L.lazy_matrices) :
    (L.add X m).to_normal = accP L.to_normal X m := by
  have hs2 : SALSorted (L.add X m).lazy_matrices := hs.mset X _
  have hnd := sorted_keys_nodup hs
  have hnd2 := sorted_keys_nodup hs2
  apply SAL.ext (to_normal_sorted _) (accP_sorted (to_normal_sorted L) X m)
  intro k
  rw [mget_accP]
  by_cases hk : k = X
  · subst hk
    have hslot : mget (L.add k m).lazy_matrices k =
        some (LazyMatrixSet.add L.b_factor (mgetD L.lazy_matrices k []) m) :=
      mget_mset_self _ _ _
    have hLHS := mget_to_normal_some (L.add k m) hnd2 k _ hslot
    by_cases hm : m = ∅
    · rw [if_pos hm]
      have hset : LazyMatrixSet.add L.b_factor (mgetD L.lazy_matrices k []) m
          = mgetD L.lazy_matrices k [] := by
        unfold LazyMatrixSet.add
        rw [hm]
        simp
      rw [hset] at hLHS
      rw [hLHS]
      rcases hx : mget L.lazy_matrices k with _ | s
      · rw [mget_to_normal_none L hnd k hx]
        have hcur : mgetD L.lazy_matrices k [] = [] := by
          simp only [mgetD, hx]
          rfl
        rw [hcur]
        rfl
      · rw [mget_to_normal_some L hnd k s hx]
        have hcur : mgetD L.lazy_matrices k [] = s := by
          simp only [mgetD, hx]
          rfl
        rw [hcur]
    · rw [if_neg hm, if_pos rfl]
      have hne := add_ne_nil L.b_factor (mgetD L.lazy_matrices k []) m hm
      rw [hLHS, isEmpty_false_of_ne_nil hne]
      simp only [Bool.false_eq_true, if_false]
      rw [materialize_eq_lmsU, lmsU_add, mgetD_to_normal L hnd k]
  · have hslot : mget (L.add X m).lazy_matrices k = mget L.lazy_matrices k :=
      mget_mset_ne _ _ _ _ hk
    have hsame : mget (L.add X m).to_normal k = mget L.to_normal k := by
      rcases hx : mget L.lazy_matrices k with _ | s
      · rw [mget_to_normal_none (L.add X m) hnd2 k (by rw [hslot, hx]),
          mget_to_normal_none L hnd k hx]
      · rw [mget_to_normal_some (L.add X m) hnd2 k s (by rw [hslot, hx]),
          mget_to_normal_some L hnd k s hx]
    rw [hsame]
    by_cases hm : m = ∅
    · rw [if_pos hm]
    · rw [if_neg hm, if_neg hk]

/-- `multiply_and_add_lazy` preserves sortedness of the lazy map. -/
theorem mulAdd_sorted (cfg : OptimizationConfig) (A B : Mat) (X : Lab)
    {L : LazyCFMatrixRepresentation} (hs : SALSorted L.lazy_matrices) :
    SALSorted (FullyOptimizedAlgo.multiply_and_add_lazy cfg A B X L).lazy_matrices := by
  unfold FullyOptimizedAlgo.multiply_and_add_lazy
  split
  · exact hs
  · dsimp only
    split
    · split
      · exact hs.mset X _
      · exact hs.mset X _
    · exact hs

/-- One lazy multiply-and-accumulate step, seen through `to_normal`, is
exactly the direct accumulation of the product: a firing trivial check means
an empty operand and hence an empty product, and an empty product is
discarded on both sides. -/
theorem to_normal_mulAdd (cfg : OptimizationConfig) (hl : cfg.use_lazy_add = true)
    (A B : Mat) (X : Lab) (L : LazyCFMatrixRepresentation)
    (hs : SALSorted L.lazy_matrices) :
    (FullyOptimizedAlgo.multiply_and_add_lazy cfg A B X L).to_normal =
      accP L.to_normal X (mxm A B) := by
  unfold FullyOptimizedAlgo.multiply_and_add_lazy
  by_cases hskip : (is_empty cfg A || is_empty cfg B) = true
  · rw [if_pos hskip]
    have hprod : mxm A B = ∅ := by
      have hskip2 : is_empty cfg A = true ∨ is_empty cfg B = true := by
        simpa using hskip
      rcases hskip2 with h | h
      · have h2 : cfg.use_trivial_checks = true ∧ A = ∅ := by
          unfold is_empty at h
          simpa using h
        rw [h2.2, mxm_empty_left]
      · have h2 : cfg.use_trivial_checks = true ∧ B = ∅ := by
          unfold is_empty at h
          simpa using h
        rw [h2.2, mxm_empty_right]
    rw [show accP L.to_normal X (mxm A B) = L.to_normal from by
      rw [hprod]
      simp [accP]]
  · rw [if_neg hskip]
    dsimp only
    by_cases hp : 0 < (mxm A B).card
    · rw [if_pos hp, if_pos hl]
      exact to_normal_add L X (mxm A B) hs
    · rw [if_neg hp]
      have hprod : mxm A B = ∅ := by
        rcases Finset.eq_empty_or_nonempty (mxm A B) with h | h
        · exact h
        · exact absurd (Finset.card_pos.mpr h) hp
      rw [show accP L.to_normal X (mxm A B) = L.to_normal from by
        rw [hprod]
        simp [accP]]

/-- Every slot of a lazy map reached by adds of non-empty matrices is a
non-empty set. -/
theorem add_LNE {L : LazyCFMatrixRepresentation} (X : Lab) {m : Mat}
    (hm : m ≠ ∅) (hL : ∀ kv ∈ L.lazy_matrices, kv.2 ≠ []) :
    ∀ kv ∈ (L.add X m).lazy_matrices, kv.2 ≠ [] := by
  intro kv hkv
  rcases mem_mset hkv with h | h
  · subst h
    exact add_ne_nil L.b_factor _ m hm
  · exact hL kv h

theorem mulAdd_LNE (cfg : OptimizationConfig) (A B : Mat) (X : Lab)
    {L : LazyCFMatrixRepresentation} (hL : ∀ kv ∈ L.lazy_matrices, kv.2 ≠ []) :
    ∀ kv ∈ (FullyOptimizedAlgo.multiply_and_add_lazy cfg A B X L).lazy_matrices,
      kv.2 ≠ [] := by
  unfold FullyOptimizedAlgo.multiply_and_add_lazy
  split
  · exact hL
  · dsimp only
    split
    · next hp =>
        have hpne : mxm A B ≠ ∅ :=
          Finset.nonempty_iff_ne_empty.mp (Finset.card_pos.mp hp)
        split
        · exact add_LNE X hpne hL
        · refine add_LNE X ?_ hL
          intro hu
          rcases Finset.union_eq_empty.mp hu with ⟨_, h2⟩
          exact hpne h2
    · exact hL

/-! ### Phase contribution lists (claim C1) -/

/-- The three independent CNF cases of one rule, in program order
(incremental_matrix_algo.hpp lines 95-185, fully_optimized_algo.hpp lines
834-858). -/
def cnfContrib (M delta : CFMR) (r : Lab × Lab × Lab) : Contribs :=
  (if CFMR.has delta r.2.1 && CFMR.has delta r.2.2 then
    [(r.1, mxm (mgetD delta r.2.1 ∅) (mgetD delta r.2.2 ∅))] else []) ++
  (if CFMR.has M r.2.1 && CFMR.has delta r.2.2 then
    [(r.1, mxm (mgetD M r.2.1 ∅) (mgetD delta r.2.2 ∅))] else []) ++
  (if CFMR.has delta r.2.1 && CFMR.has M r.2.2 then
    [(r.1, mxm (mgetD delta r.2.1 ∅) (mgetD M r.2.2 ∅))] else [])

/-- The delta and M cases of one extended-left rule A to B t. -/
def extLeftContrib (g : label_decomposed_graph) (M delta : CFMR)
    (r : Lab × Lab × Lab) : Contribs :=
  if gfind g r.2.2 = none then []
  else
    (if CFMR.has delta r.2.1 then
      [(r.1, mxm (mgetD delta r.2.1 ∅) (gat g r.2.2))] else []) ++
    (if CFMR.has M r.2.1 then
      [(r.1, mxm (mgetD M r.2.1 ∅) (gat g r.2.2))] else [])

/-- The delta and M cases of one extended-right rule A to t B. -/
def extRightContrib (g : label_decomposed_graph) (M delta : CFMR)
    (r : Lab × Lab × Lab) : Contribs :=
  if gfind g r.2.1 = none then []
  else
    (if CFMR.has delta r.2.2 then
      [(r.1, mxm (gat g r.2.1) (mgetD delta r.2.2 ∅))] else []) ++
    (if CFMR.has M r.2.2 then
      [(r.1, mxm (gat g r.2.1) (mgetD M r.2.2 ∅))] else [])

/-- The front contribution of one simple rule A to B. -/
def simpleContrib (delta : CFMR) (r : Lab × Lab) : Contribs :=
  if CFMR.has delta r.2 then [(r.1, mgetD delta r.2 ∅)] else []

/-- The contribution of one double-terminal rule X to a b. -/
def dblContrib (g : label_decomposed_graph) (r : Lab × Lab × Lab) : Contribs :=
  if gfind g r.2.1 = none then []
  else if gfind g r.2.2 = none then []
  else [(r.1, mxm (gat g r.2.1) (gat g r.2.2))]

theorem runC_guard (res : CFMR) (b : Bool) (X : Lab) (p : Mat) :
    runC res (if b then [(X, p)] else []) = if b then accP res X p else res := by
  cases b
  · rfl
  · rfl

/-- A guarded accumulation whose trivial check is dead under the guard. -/
theorem guard_skip (res : CFMR) (X : Lab) (p : Mat) (g t : Bool)
    (hdead : g = true → t = false) :
    (if g then (if t then res else accP res X p) else res) =
      if g then accP res X p else res := by
  cases g
  · rfl
  · rw [hdead rfl]
    rfl

/-- A fold of per-rule steps that each amount to running the contribution
list of the rule. -/
theorem foldl_eq_runC {β : Type} (f : CFMR → β → CFMR) (cf : β → Contribs)
    (hf : ∀ res r, f res r = runC res (cf r)) :
    ∀ (rules : List β) (res0 : CFMR),
      rules.foldl f res0 = runC res0 (rules.flatMap cf)
  | [], _ => rfl
  | r :: rs, res0 => by
      rw [List.flatMap_cons, runC_append, ← hf res0 r]
      exact foldl_eq_runC f cf hf rs (f res0 r)

/-- The same fold principle for the lazy engine, observed through
`to_normal`, with sortedness of the lazy map carried along. -/
theorem lazyFoldl_eq_runC {β : Type}
    (f : LazyCFMatrixRepresentation → β → LazyCFMatrixRepresentation)
    (cf : β → Contribs)
    (hsort : ∀ L r, SALSorted L.lazy_matrices → SALSorted (f L r).lazy_matrices)
    (hf : ∀ L r, SALSorted L.lazy_matrices →
      (f L r).to_normal = runC L.to_normal (cf r)) :
    ∀ (rules : List β) (L0 : LazyCFMatrixRepresentation),
      SALSorted L0.lazy_matrices →
      (rules.foldl f L0).to_normal = runC L0.to_normal (rules.flatMap cf)
  | [], _, _ => rfl
  | r :: rs, L0, hs => by
      rw [List.flatMap_cons, runC_append, ← hf L0 r hs]
      exact lazyFoldl_eq_runC f cf hsort hf rs (f L0 r) (hsort L0 r hs)

/-- The incremental CNF phase is the run of its contribution list: the
trivial-check skips are dead because each case is guarded by `has`. -/
theorem inc_cnf_runC (cfg : OptimizationConfig) (rules : List (Lab × Lab × Lab))
    (M delta : CFMR) (res0 : CFMR) :
    IncrementalMatrixAlgo.apply_cnf_rules_incremental cfg rules M delta res0 =
      runC res0 (rules.flatMap (cnfContrib M delta)) := by
  unfold IncrementalMatrixAlgo.apply_cnf_rules_incremental
  refine foldl_eq_runC _ _ ?_ rules res0
  intro res r
  dsimp only
  have hd1 : (CFMR.has delta r.2.1 && CFMR.has delta r.2.2) = true →
      (cfg.use_trivial_checks &&
        (is_empty cfg (mgetD delta r.2.1 ∅) || is_empty cfg (mgetD delta r.2.2 ∅)))
        = false := by
    intro hg
    have hg2 : CFMR.has delta r.2.1 = true ∧ CFMR.has delta r.2.2 = true := by
      simpa using hg
    rw [has_not_isEmpty hg2.1 cfg, has_not_isEmpty hg2.2 cfg]
    simp
  have hd2 : (CFMR.has M r.2.1 && CFMR.has delta r.2.2) = true →
      (cfg.use_trivial_checks &&
        (is_empty cfg (mgetD M r.2.1 ∅) || is_empty cfg (mgetD delta r.2.2 ∅)))
        = false := by
    intro hg
    have hg2 : CFMR.has M r.2.1 = true ∧ CFMR.has delta r.2.2 = true := by
      simpa using hg
    rw [has_not_isEmpty hg2.1 cfg, has_not_isEmpty hg2.2 cfg]
    simp
  have hd3 : (CFMR.has delta r.2.1 && CFMR.has M r.2.2) = true →
      (cfg.use_trivial_checks &&
        (is_empty cfg (mgetD delta r.2.1 ∅) || is_empty cfg (mgetD M r.2.2 ∅)))
        = false := by
    intro hg
    have hg2 : CFMR.has delta r.2.1 = true ∧ CFMR.has M r.2.2 = true := by
      simpa using hg
    rw [has_not_isEmpty hg2.1 cfg, has_not_isEmpty hg2.2 cfg]
    simp
  unfold cnfContrib
  rw [runC_append, runC_append, runC_guard, runC_guard, runC_guard,
    guard_skip _ _ _ _ _ hd3, guard_skip _ _ _ _ _ hd2, guard_skip _ _ _ _ _ hd1]

/-- The incremental extended-left phase is the run of its contribution list:
the `continue` skips are dead because they demand both a `has` guard and an
empty matrix. -/
theorem inc_extLeft_runC (cfg : OptimizationConfig) (g : label_decomposed_graph)
    (rules : List (Lab × Lab × Lab)) (M delta : CFMR) (res0 : CFMR) :
    IncrementalMatrixAlgo.apply_extended_left_incremental cfg g rules M delta res0 =
      runC res0 (rules.flatMap (extLeftContrib g M delta)) := by
  unfold IncrementalMatrixAlgo.apply_extended_left_incremental
  refine foldl_eq_runC _ _ ?_ rules res0
  intro res r
  dsimp only
  have hd1 : (CFMR.has delta r.2.1 && cfg.use_trivial_checks &&
      is_empty cfg (mgetD delta r.2.1 ∅)) = false := by
    by_cases hY : CFMR.has delta r.2.1 = true
    · rw [has_not_isEmpty hY cfg, Bool.and_false]
    · have hf : CFMR.has delta r.2.1 = false := eq_false_of_ne_true hY
      rw [hf, Bool.false_and, Bool.false_and]
  have hd2 : (CFMR.has M r.2.1 && cfg.use_trivial_checks &&
      is_empty cfg (mgetD M r.2.1 ∅)) = false := by
    by_cases hY : CFMR.has M r.2.1 = true
    · rw [has_not_isEmpty hY cfg, Bool.and_false]
    · have hf : CFMR.has M r.2.1 = false := eq_false_of_ne_true hY
      rw [hf, Bool.false_and, Bool.false_and]
  simp only [hd1, hd2, Bool.false_eq_true, if_false]
  unfold extLeftContrib
  by_cases hz : gfind g r.2.2 = none
  · rw [if_pos hz, if_pos hz]
    rfl
  · rw [if_neg hz, if_neg hz, runC_append, runC_guard, runC_guard]

/-- The incremental extended-right phase is the run of its contribution
list. -/
theorem inc_extRight_runC (cfg : OptimizationConfig) (g : label_decomposed_graph)
    (rules : List (Lab × Lab × Lab)) (M delta : CFMR) (res0 : CFMR) :
    IncrementalMatrixAlgo.apply_extended_right_incremental cfg g rules M delta res0 =
      runC res0 (rules.flatMap (extRightContrib g M delta)) := by
  unfold IncrementalMatrixAlgo.apply_extended_right_incremental
  refine foldl_eq_runC _ _ ?_ rules res0
  intro res r
  dsimp only
  have hd1 : (CFMR.has delta r.2.2 && cfg.use_trivial_checks &&
      is_empty cfg (mgetD delta r.2.2 ∅)) = false := by
    by_cases hY : CFMR.has delta r.2.2 = true
    · rw [has_not_isEmpty hY cfg, Bool.and_false]
    · have hf : CFMR.has delta r.2.2 = false := eq_false_of_ne_true hY
      rw [hf, Bool.false_and, Bool.false_and]
  have hd2 : (CFMR.has M r.2.2 && cfg.use_trivial_checks &&
      is_empty cfg (mgetD M r.2.2 ∅)) = false := by
    by_cases hY : CFMR.has M r.2.2 = true
    · rw [has_not_isEmpty hY cfg, Bool.and_false]
    · have hf : CFMR.has M r.2.2 = false := eq_false_of_ne_true hY
      rw [hf, Bool.false_and, Bool.false_and]
  simp only [hd1, hd2, Bool.false_eq_true, if_false]
  unfold extRightContrib
  by_cases hy : gfind g r.2.1 = none
  · rw [if_pos hy, if_pos hy]
    rfl
  · rw [if_neg hy, if_neg hy, runC_append, runC_guard, runC_guard]

/-- The incremental simple phase is the run of its contribution list: under
the `has` guard the direct slot update is exactly `accP`. -/
theorem inc_simple_runC (rules : List (Lab × Lab)) (delta : CFMR) (res0 : CFMR) :
    IncrementalMatrixAlgo.apply_simple_rules_incremental rules delta res0 =
      runC res0 (rules.flatMap (simpleContrib delta)) := by
  unfold IncrementalMatrixAlgo.apply_simple_rules_incremental
  refine foldl_eq_runC _ _ ?_ rules res0
  intro res r
  dsimp only
  unfold simpleContrib
  by_cases hB : CFMR.has delta r.2 = true
  · rw [if_pos hB, if_pos hB]
    show mset res r.1 (mgetD res r.1 ∅ ∪ mgetD delta r.2 ∅) =
      accP res r.1 (mgetD delta r.2 ∅)
    unfold accP
    have hne : mgetD delta r.2 ∅ ≠ ∅ := by simpa [CFMR.has] using hB
    rw [if_neg hne]
  · rw [if_neg hB, if_neg hB]
    rfl

/-- The incremental double-terminal phase is the run of its contribution
list: when the trivial check fires, one operand is empty, so the discarded
product was empty anyway. -/
theorem inc_dbl_runC (cfg : OptimizationConfig) (g : label_decomposed_graph)
    (rules : List (Lab × Lab × Lab)) (delta0 : CFMR) :
    IncrementalMatrixAlgo.apply_double_terminal cfg g rules delta0 =
      runC delta0 (rules.flatMap (dblContrib g)) := by
  unfold IncrementalMatrixAlgo.apply_double_terminal
  refine foldl_eq_runC _ _ ?_ rules delta0
  intro acc r
  dsimp only
  unfold dblContrib
  by_cases hy : gfind g r.2.1 = none
  · rw [if_pos hy, if_pos hy]
    rfl
  · rw [if_neg hy, if_neg hy]
    by_cases hz : gfind g r.2.2 = none
    · rw [if_pos hz, if_pos hz]
      rfl
    · rw [if_neg hz, if_neg hz]
      show (if (cfg.use_trivial_checks &&
            (is_empty cfg (gat g r.2.1) || is_empty cfg (gat g r.2.2))) = true then acc
          else accP acc r.1 (mxm (gat g r.2.1) (gat g r.2.2))) =
        accP acc r.1 (mxm (gat g r.2.1) (gat g r.2.2))
      by_cases hskip : (cfg.use_trivial_checks &&
          (is_empty cfg (gat g r.2.1) || is_empty cfg (gat g r.2.2))) = true
      · rw [if_pos hskip]
        have hp : mxm (gat g r.2.1) (gat g r.2.2) = ∅ := by
          have hsplit : cfg.use_trivial_checks = true ∧
              (is_empty cfg (gat g r.2.1) = true ∨ is_empty cfg (gat g r.2.2) = true) := by
            simpa using hskip
          rcases hsplit.2 with h | h
          · have h2 : cfg.use_trivial_checks = true ∧ gat g r.2.1 = ∅ := by
              unfold is_empty at h
              simpa using h
            rw [h2.2, mxm_empty_left]
          · have h2 : cfg.use_trivial_checks = true ∧ gat g r.2.2 = ∅ := by
              unfold is_empty at h
              simpa using h
            rw [h2.2, mxm_empty_right]
        rw [show accP acc r.1 (mxm (gat g r.2.1) (gat g r.2.2)) = acc from by
          rw [hp]
          simp [accP]]
      · rw [if_neg hskip]

/-! ### The lazy engine phases through `to_normal` (claim C1) -/

theorem lazyFoldl_sorted {β : Type}
    (f : LazyCFMatrixRepresentation → β → LazyCFMatrixRepresentation)
    (hsort : ∀ L r, SALSorted L.lazy_matrices → SALSorted (f L r).lazy_matrices) :
    ∀ (rules : List β) (L0 : LazyCFMatrixRepresentation),
      SALSorted L0.lazy_matrices → SALSorted (rules.foldl f L0).lazy_matrices
  | [], _, hs => hs
  | r :: rs, L0, hs => lazyFoldl_sorted f hsort rs (f L0 r) (hsort L0 r hs)

theorem mulAdd_guard_sorted (cfg : OptimizationConfig) (gb : Bool) (A B : Mat)
    (X : Lab) {L : LazyCFMatrixRepresentation} (hs : SALSorted L.lazy_matrices) :
    SALSorted (if gb then FullyOptimizedAlgo.multiply_and_add_lazy cfg A B X L
      else L).lazy_matrices := by
  cases gb
  · exact hs
  · exact mulAdd_sorted cfg A B X hs

/-- A guarded lazy multiply-and-accumulate, observed through `to_normal`. -/
theorem to_normal_guard (cfg : OptimizationConfig) (hl : cfg.use_lazy_add = true)
    (gb : Bool) (A B : Mat) (X : Lab) (L : LazyCFMatrixRepresentation)
    (hs : SALSorted L.lazy_matrices) :
    (if gb then FullyOptimizedAlgo.multiply_and_add_lazy cfg A B X L
      else L).to_normal =
      runC L.to_normal (if gb then [(X, mxm A B)] else []) := by
  cases gb
  · rfl
  · show (FullyOptimizedAlgo.multiply_and_add_lazy cfg A B X L).to_normal =
      runC L.to_normal [(X, mxm A B)]
    rw [to_normal_mulAdd cfg hl A B X L hs]
    rfl

theorem foa_cnf_sorted (cfg : OptimizationConfig) (rules : List (Lab × Lab × Lab))
    (M delta : CFMR) {L0 : LazyCFMatrixRepresentation}
    (hs0 : SALSorted L0.lazy_matrices) :
    SALSorted (FullyOptimizedAlgo.apply_cnf_incremental_lazy cfg rules
      M delta L0).lazy_matrices := by
  unfold FullyOptimizedAlgo.apply_cnf_incremental_lazy
  refine lazyFoldl_sorted _ ?_ rules L0 hs0
  intro L r hs
  dsimp only
  exact mulAdd_guard_sorted cfg _ _ _ _
    (mulAdd_guard_sorted cfg _ _ _ _ (mulAdd_guard_sorted cfg _ _ _ _ hs))

/-- The corrected lazy CNF phase equals the run of the same contribution
list as the incremental engine. -/
theorem foa_cnf_runC (cfg : OptimizationConfig) (hl : cfg.use_lazy_add = true)
    (rules : List (Lab × Lab × Lab)) (M delta : CFMR)
    (L0 : LazyCFMatrixRepresentation) (hs0 : SALSorted L0.lazy_matrices) :
    (FullyOptimizedAlgo.apply_cnf_incremental_lazy cfg rules M delta L0).to_normal =
      runC L0.to_normal (rules.flatMap (cnfContrib M delta)) := by
  unfold FullyOptimizedAlgo.apply_cnf_incremental_lazy
  refine lazyFoldl_eq_runC _ _ ?_ ?_ rules L0 hs0
  · intro L r hs
    dsimp only
    exact mulAdd_guard_sorted cfg _ _ _ _
      (mulAdd_guard_sorted cfg _ _ _ _ (mulAdd_guard_sorted cfg _ _ _ _ hs))
  · intro L r hs
    dsimp only
    have hs1 := mulAdd_guard_sorted cfg (CFMR.has delta r.2.1 && CFMR.has delta r.2.2)
      (mgetD delta r.2.1 ∅) (mgetD delta r.2.2 ∅) r.1 hs
    have hs2 := mulAdd_guard_sorted cfg (CFMR.has M r.2.1 && CFMR.has delta r.2.2)
      (mgetD M r.2.1 ∅) (mgetD delta r.2.2 ∅) r.1 hs1
    unfold cnfContrib
    rw [runC_append, runC_append,
      to_normal_guard cfg hl _ _ _ _ _ hs2,
      to_normal_guard cfg hl _ _ _ _ _ hs1,
      to_normal_guard cfg hl _ _ _ _ _ hs]

theorem foa_extLeft_sorted (cfg : OptimizationConfig) (g : label_decomposed_graph)
    (rules : List (Lab × Lab × Lab)) (M delta : CFMR)
    {L0 : LazyCFMatrixRepresentation} (hs0 : SALSorted L0.lazy_matrices) :
    SALSorted (FullyOptimizedAlgo.apply_extended_left_incremental_lazy cfg g rules
      M delta L0).lazy_matrices := by
  unfold FullyOptimizedAlgo.apply_extended_left_incremental_lazy
  refine lazyFoldl_sorted _ ?_ rules L0 hs0
  intro L r hs
  dsimp only
  split
  · exact hs
  · exact mulAdd_guard_sorted cfg _ _ _ _ (mulAdd_guard_sorted cfg _ _ _ _ hs)

theorem foa_extLeft_runC (cfg : OptimizationConfig) (hl : cfg.use_lazy_add = true)
    (g : label_decomposed_graph) (rules : List (Lab × Lab × Lab)) (M delta : CFMR)
    (L0 : LazyCFMatrixRepresentation) (hs0 : SALSorted L0.lazy_matrices) :
    (FullyOptimizedAlgo.apply_extended_left_incremental_lazy cfg g rules
      M delta L0).to_normal =
      runC L0.to_normal (rules.flatMap (extLeftContrib g M delta)) := by
  unfold FullyOptimizedAlgo.apply_extended_left_incremental_lazy
  refine lazyFoldl_eq_runC _ _ ?_ ?_ rules L0 hs0
  · intro L r hs
    dsimp only
    split
    · exact hs
    · exact mulAdd_guard_sorted cfg _ _ _ _ (mulAdd_guard_sorted cfg _ _ _ _ hs)
  · intro L r hs
    dsimp only
    unfold extLeftContrib
    by_cases hz : gfind g r.2.2 = none
    · rw [if_pos hz, if_pos hz]
      rfl
    · rw [if_neg hz, if_neg hz]
      have hs1 := mulAdd_guard_sorted cfg (CFMR.has delta r.2.1)
        (mgetD delta r.2.1 ∅) (gat g r.2.2) r.1 hs
      rw [runC_append,
        to_normal_guard cfg hl _ _ _ _ _ hs1,
        to_normal_guard cfg hl _ _ _ _ _ hs]

theorem foa_extRight_sorted (cfg : OptimizationConfig) (g : label_decomposed_graph)
    (rules : List (Lab × Lab × Lab)) (M delta : CFMR)
    {L0 : LazyCFMatrixRepresentation} (hs0 : SALSorted L0.lazy_matrices) :
    SALSorted (FullyOptimizedAlgo.apply_extended_right_incremental_lazy cfg g rules
      M delta L0).lazy_matrices := by
  unfold FullyOptimizedAlgo.apply_extended_right_incremental_lazy
  refine lazyFoldl_sorted _ ?_ rules L0 hs0
  intro L r hs
  dsimp only
  split
  · exact hs
  · exact mulAdd_guard_sorted cfg _ _ _ _ (mulAdd_guard_sorted cfg _ _ _ _ hs)

theorem foa_extRight_runC (cfg : OptimizationConfig) (hl : cfg.use_lazy_add = true)
    (g : label_decomposed_graph) (rules : List (Lab × Lab × Lab)) (M delta : CFMR)
    (L0 : LazyCFMatrixRepresentation) (hs0 : SALSorted L0.lazy_matrices) :
    (FullyOptimizedAlgo.apply_extended_right_incremental_lazy cfg g rules
      M delta L0).to_normal =
      runC L0.to_normal (rules.flatMap (extRightContrib g M delta)) := by
  unfold FullyOptimizedAlgo.apply_extended_right_incremental_lazy
  refine lazyFoldl_eq_runC _ _ ?_ ?_ rules L0 hs0
  · intro L r hs
    dsimp only
    split
    · exact hs
    · exact mulAdd_guard_sorted cfg _ _ _ _ (mulAdd_guard_sorted cfg _ _ _ _ hs)
  · intro L r hs
    dsimp only
    unfold extRightContrib
    by_cases hy : gfind g r.2.1 = none
    · rw [if_pos hy, if_pos hy]
      rfl
    · rw [if_neg hy, if_neg hy]
      have hs1 := mulAdd_guard_sorted cfg (CFMR.has delta r.2.2)
        (gat g r.2.1) (mgetD delta r.2.2 ∅) r.1 hs
      rw [runC_append,
        to_normal_guard cfg hl _ _ _ _ _ hs1,
        to_normal_guard cfg hl _ _ _ _ _ hs]

theorem foa_simple_sorted (rules : List (Lab × Lab)) (delta : CFMR)
    {L0 : LazyCFMatrixRepresentation} (hs0 : SALSorted L0.lazy_matrices) :
    SALSorted (FullyOptimizedAlgo.apply_simple_rules_incremental_lazy rules
      delta L0).lazy_matrices := by
  unfold FullyOptimizedAlgo.apply_simple_rules_incremental_lazy
  refine lazyFoldl_sorted _ ?_ rules L0 hs0
  intro L r hs
  dsimp only
  split
  · exact hs.mset _ _
  · exact hs

theorem foa_simple_runC (rules : List (Lab × Lab)) (delta : CFMR)
    (L0 : LazyCFMatrixRepresentation) (hs0 : SALSorted L0.lazy_matrices) :
    (FullyOptimizedAlgo.apply_simple_rules_incremental_lazy rules
      delta L0).to_normal =
      runC L0.to_normal (rules.flatMap (simpleContrib delta)) := by
  unfold FullyOptimizedAlgo.apply_simple_rules_incremental_lazy
  refine lazyFoldl_eq_runC _ _ ?_ ?_ rules L0 hs0
  · intro L r hs
    dsimp only
    split
    · exact hs.mset _ _
    · exact hs
  · intro L r hs
    dsimp only
    unfold simpleContrib
    by_cases hB : CFMR.has delta r.2 = true
    · rw [if_pos hB, if_pos hB, to_normal_add L r.1 _ hs]
      rfl
    · rw [if_neg hB, if_neg hB]
      rfl

theorem foa_dbl_sorted (cfg : OptimizationConfig) (g : label_decomposed_graph)
    (rules : List (Lab × Lab × Lab)) {L0 : LazyCFMatrixRepresentation}
    (hs0 : SALSorted L0.lazy_matrices) :
    SALSorted (FullyOptimizedAlgo.apply_double_terminal_lazy cfg g rules
      L0).lazy_matrices := by
  unfold FullyOptimizedAlgo.apply_double_terminal_lazy
  refine lazyFoldl_sorted _ ?_ rules L0 hs0
  intro L r hs
  dsimp only
  split
  · exact hs
  · split
    · exact hs
    · exact mulAdd_sorted cfg _ _ _ hs

theorem foa_dbl_runC (cfg : OptimizationConfig) (hl : cfg.use_lazy_add = true)
    (g : label_decomposed_graph) (rules : List (Lab × Lab × Lab))
    (L0 : LazyCFMatrixRepresentation) (hs0 : SALSorted L0.lazy_matrices) :
    (FullyOptimizedAlgo.apply_double_terminal_lazy cfg g rules L0).to_normal =
      runC L0.to_normal (rules.flatMap (dblContrib g)) := by
  unfold FullyOptimizedAlgo.apply_double_terminal_lazy
  refine lazyFoldl_eq_runC _ _ ?_ ?_ rules L0 hs0
  · intro L r hs
    dsimp only
    split
    · exact hs
    · split
      · exact hs
      · exact mulAdd_sorted cfg _ _ _ hs
  · intro L r hs
    dsimp only
    unfold dblContrib
    by_cases hy : gfind g r.2.1 = none
    · rw [if_pos hy, if_pos hy]
      rfl
    · rw [if_neg hy, if_neg hy]
      by_cases hz : gfind g r.2.2 = none
      · rw [if_pos hz, if_pos hz]
        rfl
      · rw [if_neg hz, if_neg hz, to_normal_mulAdd cfg hl _ _ _ _ hs]
        rfl

/-! ### Engine equality: step, initialisation, loop, solve (claim C1) -/

/-- Both engine temporary fronts are the run of the same contribution list,
so one loop body of the fully optimised engine equals one loop body of the
incremental engine, for every pair of configurations (lazy addition on in
the first) and every b. -/
theorem step_eq (cfgF cfgI : OptimizationConfig) (hl : cfgF.use_lazy_add = true)
    (gr : cnf_grammar) (g : label_decomposed_graph) (b : ℚ) (M delta : CFMR) :
    FullyOptimizedAlgo.step cfgF gr g b M delta =
      IncrementalMatrixAlgo.step cfgI gr g M delta := by
  unfold FullyOptimizedAlgo.step IncrementalMatrixAlgo.step
  dsimp only
  have hmk : SALSorted (LazyCFMatrixRepresentation.mk0 g.matrix_size b).lazy_matrices :=
    SALSorted.nil
  have h1 := foa_cnf_sorted cfgF (cnfRules gr) M delta hmk
  have h2 := foa_extLeft_sorted cfgF g (extLeftRules gr) M delta h1
  have h3 := foa_extRight_sorted cfgF g (extRightRules gr) M delta h2
  rw [foa_simple_runC _ _ _ h3, foa_extRight_runC cfgF hl _ _ _ _ _ h2,
    foa_extLeft_runC cfgF hl _ _ _ _ _ h1, foa_cnf_runC cfgF hl _ _ _ _ hmk,
    show (LazyCFMatrixRepresentation.mk0 g.matrix_size b).to_normal = ([] : CFMR)
      from rfl,
    inc_simple_runC, inc_extRight_runC, inc_extLeft_runC, inc_cnf_runC]

/-- The lazy double-terminal initialisation only creates non-empty sets
when started from the fresh representation. -/
theorem foa_dbl_LNE (cfg : OptimizationConfig) (g : label_decomposed_graph)
    (rules : List (Lab × Lab × Lab)) {L0 : LazyCFMatrixRepresentation}
    (hL0 : ∀ kv ∈ L0.lazy_matrices, kv.2 ≠ []) :
    ∀ kv ∈ (FullyOptimizedAlgo.apply_double_terminal_lazy cfg g rules
      L0).lazy_matrices, kv.2 ≠ [] := by
  unfold FullyOptimizedAlgo.apply_double_terminal_lazy
  induction rules generalizing L0 with
  | nil => exact hL0
  | cons r rs ih =>
      refine ih ?_
      dsimp only
      split
      · exact hL0
      · split
        · exact hL0
        · exact mulAdd_LNE cfg _ _ _ hL0

/-- Insertion past every key appends. -/
theorem mset_append_of_lt {α : Type} : ∀ {m : SAL α} {k : Lab} (v : α),
    (∀ kv ∈ m, labLt kv.1 k = true) → mset m k v = m ++ [(k, v)]
  | [], _, _, _ => rfl
  | kv :: t, k, v, h => by
      have hlt : labLt kv.1 k = true := h kv (List.mem_cons_self _ _)
      have h1 : labLt k kv.1 = false := by
        rcases hv : labLt k kv.1 with _ | _
        · rfl
        · have h3 := labLt_trans hv hlt
          rw [labLt_irrefl] at h3
          exact Bool.noConfusion h3
      have h2 : k ≠ kv.1 := fun he => (labLt_ne hlt) he.symm
      simp only [mset, h1, Bool.false_eq_true, if_false, if_neg h2]
      rw [mset_append_of_lt v (fun kv2 hkv2 => h kv2 (List.mem_cons_of_mem _ hkv2))]
      rfl

/-- On a sorted lazy map of non-empty sets, `to_normal` is the map of
per-label materialisations. -/
theorem collect_eq_append : ∀ (l : SAL (List Mat)) (res0 : CFMR),
    SALSorted l →
    (∀ kv ∈ l, ∀ kv0 ∈ res0, labLt kv0.1 kv.1 = true) →
    (∀ kv ∈ l, kv.2 ≠ []) →
    l.foldl collectStep res0 =
      res0 ++ l.map (fun kv => (kv.1, LazyMatrixSet.materialize kv.2))
  | [], res0, _, _, _ => by simp
  | kv :: rest, res0, hs, hgt, hne => by
      rcases List.pairwise_cons.mp hs with ⟨hhead, htail⟩
      have hkv_ne : kv.2 ≠ [] := hne kv (List.mem_cons_self _ _)
      have hstep : collectStep res0 kv =
          res0 ++ [(kv.1, LazyMatrixSet.materialize kv.2)] := by
        unfold collectStep
        rw [isEmpty_false_of_ne_nil hkv_ne]
        simp only [Bool.false_eq_true, if_false]
        exact mset_append_of_lt _ (fun kv0 h0 => hgt kv (List.mem_cons_self _ _) kv0 h0)
      have hrec := collect_eq_append rest
        (res0 ++ [(kv.1, LazyMatrixSet.materialize kv.2)]) htail
        (by
          intro kv2 h2 kv0 h0
          rcases List.mem_append.mp h0 with h0 | h0
          · exact hgt kv2 (List.mem_cons_of_mem _ h2) kv0 h0
          · have he : kv0 = (kv.1, LazyMatrixSet.materialize kv.2) := by simpa using h0
            rw [he]
            exact hhead kv2 h2)
        (fun kv2 h2 => hne kv2 (List.mem_cons_of_mem _ h2))
      rw [show (kv :: rest).foldl collectStep res0 =
          rest.foldl collectStep (collectStep res0 kv) from rfl, hstep, hrec]
      simp

theorem to_normal_eq_map (L : LazyCFMatrixRepresentation)
    (hs : SALSorted L.lazy_matrices) (hne : ∀ kv ∈ L.lazy_matrices, kv.2 ≠ []) :
    L.to_normal =
      L.lazy_matrices.map (fun kv => (kv.1, LazyMatrixSet.materialize kv.2)) := by
  have h := collect_eq_append L.lazy_matrices [] hs
    (by intro kv _ kv0 h0; simp at h0) hne
  simpa using h

theorem foldl_congr_mem {α β : Type} (l : List β) (f f2 : α → β → α)
    (h : ∀ a x, x ∈ l → f a x = f2 a x) : ∀ a0, l.foldl f a0 = l.foldl f2 a0 := by
  induction l with
  | nil => intro a0; rfl
  | cons x xs ih =>
      intro a0
      rw [show (x :: xs).foldl f a0 = xs.foldl f (f a0 x) from rfl,
        show (x :: xs).foldl f2 a0 = xs.foldl f2 (f2 a0 x) from rfl,
        h a0 x (List.mem_cons_self _ _)]
      exact ih (fun a y hy => h a y (List.mem_cons_of_mem _ hy)) (f2 a0 x)

/-- The per-label materialisation fold closing the lazy initialisation is
`union_with` against `to_normal`. -/
theorem labelsFold_eq_union_with (lz : LazyCFMatrixRepresentation) (d : CFMR)
    (hs : SALSorted lz.lazy_matrices) (hne : ∀ kv ∈ lz.lazy_matrices, kv.2 ≠ []) :
    lz.labels.foldl
      (fun d2 l => mset d2 l (mgetD d2 l ∅ ∪
        (LazyCFMatrixRepresentation.materialize lz l).1)) d
      = union_with d lz.to_normal := by
  rw [to_normal_eq_map lz hs hne]
  unfold union_with
  rw [List.foldl_map]
  unfold LazyCFMatrixRepresentation.labels
  rw [List.foldl_map]
  refine foldl_congr_mem _ _ _ ?_ d
  intro d2 kv hkv
  have hm := mget_of_mem_sorted hs hkv
  unfold LazyCFMatrixRepresentation.materialize
  rw [hm]

/-- Merging a run from the empty map into an accumulator is the run from the
accumulator. -/
theorem union_with_runC_empty (d : CFMR) (hs : SALSorted d) (cs : Contribs) :
    union_with d (runC [] cs) = runC d cs := by
  apply SAL.ext (union_with_sorted hs _) (runC_sorted hs cs)
  intro k
  have hnd : ((runC ([] : CFMR) cs).map Prod.fst).Nodup :=
    sorted_keys_nodup (runC_sorted SALSorted.nil cs)
  rw [mget_union_with _ _ k hnd, mget_runC cs ([] : CFMR) k, mget_runC cs d k]
  by_cases hcs : csHas k cs = true
  · rw [if_pos hcs, if_pos hcs]
    show some (mgetD d k ∅ ∪ (mgetD ([] : CFMR) k ∅ ∪ contribU k cs)) =
      some (mgetD d k ∅ ∪ contribU k cs)
    rw [show mgetD ([] : CFMR) k ∅ = ∅ from rfl, Finset.empty_union]
  · rw [if_neg hcs, if_neg hcs]
    rfl

/-- The front initialisations of the two engines agree whenever lazy
addition is on (as in every factory configuration of the optimised engine),
for every configuration of the incremental engine. -/
theorem initDelta_eq (cfgF cfgI : OptimizationConfig) (hl : cfgF.use_lazy_add = true)
    (gr : cnf_grammar) (g : label_decomposed_graph) (b : ℚ) :
    FullyOptimizedAlgo.initDelta cfgF gr g b =
      IncrementalMatrixAlgo.initDelta cfgI gr g := by
  unfold FullyOptimizedAlgo.initDelta IncrementalMatrixAlgo.initDelta
  dsimp only
  rw [if_pos hl]
  have hd : SALSorted (IncrementalMatrixAlgo.initEpsilon gr g.matrix_size
      (IncrementalMatrixAlgo.initSimple gr g [])) :=
    initEpsilon_sorted _ _ (initSimple_sorted _ _ SALSorted.nil)
  have hmk : SALSorted (LazyCFMatrixRepresentation.mk0 g.matrix_size b).lazy_matrices :=
    SALSorted.nil
  have hlz_sorted := foa_dbl_sorted cfgF g (dblTermRules gr) hmk
  have hlz_ne : ∀ kv ∈ (FullyOptimizedAlgo.apply_double_terminal_lazy cfgF g
      (dblTermRules gr)
      (LazyCFMatrixRepresentation.mk0 g.matrix_size b)).lazy_matrices,
      kv.2 ≠ [] :=
    foa_dbl_LNE cfgF g (dblTermRules gr)
      (by intro kv hkv; exact absurd hkv (List.not_mem_nil kv))
  rw [labelsFold_eq_union_with _ _ hlz_sorted hlz_ne,
    foa_dbl_runC cfgF hl g (dblTermRules gr) _ hmk,
    show (LazyCFMatrixRepresentation.mk0 g.matrix_size b).to_normal = ([] : CFMR)
      from rfl,
    union_with_runC_empty _ hd, inc_dbl_runC]

/-- The main loops agree state for state. -/
theorem loop_eq (cfgF cfgI : OptimizationConfig) (hl : cfgF.use_lazy_add = true)
    (gr : cnf_grammar) (g : label_decomposed_graph) (b : ℚ) :
    ∀ (fuel : Nat) (M delta : CFMR) (it : Nat),
      FullyOptimizedAlgo.loop cfgF gr g b fuel M delta it =
        IncrementalMatrixAlgo.loop cfgI gr g fuel M delta it
  | 0, _, _, _ => rfl
  | fuel + 1, M, delta, it => by
      simp only [FullyOptimizedAlgo.loop, IncrementalMatrixAlgo.loop]
      by_cases hz : totalNvals delta = 0
      · rw [if_pos hz, if_pos hz]
      · rw [if_neg hz, if_neg hz]
        rw [step_eq cfgF cfgI hl gr g b M delta]
        exact loop_eq cfgF cfgI hl gr g b fuel _ _ (it + 1)

/-- The two optimised engines return exactly the incremental result (pair
set and iteration count), for every configuration with lazy addition on and
every b. -/
theorem solve_eq (cfgF cfgI : OptimizationConfig) (hl : cfgF.use_lazy_add = true)
    (gr : cnf_grammar) (g : label_decomposed_graph) (b : ℚ) :
    FullyOptimizedAlgo.solve cfgF gr g b = IncrementalMatrixAlgo.solve cfgI gr g := by
  unfold FullyOptimizedAlgo.solve IncrementalMatrixAlgo.solve
  dsimp only
  rw [initDelta_eq cfgF cfgI hl gr g b, loop_eq cfgF cfgI hl gr g b 101 [] _ 0]

/-- The incremental engine ignores its configuration: every phase is the run
of a configuration-independent contribution list. -/
theorem inc_step_cfg (cfg cfg2 : OptimizationConfig) (gr : cnf_grammar)
    (g : label_decomposed_graph) (M delta : CFMR) :
    IncrementalMatrixAlgo.step cfg gr g M delta =
      IncrementalMatrixAlgo.step cfg2 gr g M delta := by
  unfold IncrementalMatrixAlgo.step
  dsimp only
  rw [inc_simple_runC, inc_extRight_runC, inc_extLeft_runC, inc_cnf_runC,
    inc_simple_runC, inc_extRight_runC, inc_extLeft_runC, inc_cnf_runC]

theorem inc_initDelta_cfg (cfg cfg2 : OptimizationConfig) (gr : cnf_grammar)
    (g : label_decomposed_graph) :
    IncrementalMatrixAlgo.initDelta cfg gr g =
      IncrementalMatrixAlgo.initDelta cfg2 gr g := by
  unfold IncrementalMatrixAlgo.initDelta
  rw [inc_dbl_runC, inc_dbl_runC]

theorem inc_loop_cfg (cfg cfg2 : OptimizationConfig) (gr : cnf_grammar)
    (g : label_decomposed_graph) :
    ∀ (fuel : Nat) (M delta : CFMR) (it : Nat),
      IncrementalMatrixAlgo.loop cfg gr g fuel M delta it =
        IncrementalMatrixAlgo.loop cfg2 gr g fuel M delta it
  | 0, _, _, _ => rfl
  | fuel + 1, M, delta, it => by
      simp only [IncrementalMatrixAlgo.loop]
      by_cases hz : totalNvals delta = 0
      · rw [if_pos hz, if_pos hz]
      · rw [if_neg hz, if_neg hz]
        rw [inc_step_cfg cfg cfg2 gr g M delta]
        exact inc_loop_cfg cfg cfg2 gr g fuel _ _ (it + 1)

theorem inc_solve_cfg (cfg cfg2 : OptimizationConfig) (gr : cnf_grammar)
    (g : label_decomposed_graph) :
    IncrementalMatrixAlgo.solve cfg gr g = IncrementalMatrixAlgo.solve cfg2 gr g := by
  unfold IncrementalMatrixAlgo.solve
  dsimp only
  rw [inc_initDelta_cfg cfg cfg2 gr g, inc_loop_cfg cfg cfg2 gr g 101 [] _ 0]

/-- Every factory dispatch returns the result of the plain incremental
engine. -/
theorem factory_eq_incremental (t : AlgoType) (gr : cnf_grammar)
    (g : label_decomposed_graph) (b : ℚ) :
    CFReachabilityAlgoFactory.solve t gr g b =
      (IncrementalMatrixAlgo.solve
        (CFReachabilityAlgoFactory.incrementalConfig false) gr g).1 := by
  have hlt : (CFReachabilityAlgoFactory.optimizedConfig true).use_lazy_add = true := rfl
  have hlf : (CFReachabilityAlgoFactory.optimizedConfig false).use_lazy_add = true := rfl
  cases t with
  | INCREMENTAL => rfl
  | TRIVIAL_OPT =>
      show (IncrementalMatrixAlgo.solve
        (CFReachabilityAlgoFactory.incrementalConfig true) gr g).1 = _
      rw [inc_solve_cfg (CFReachabilityAlgoFactory.incrementalConfig true)
        (CFReachabilityAlgoFactory.incrementalConfig false) gr g]
  | LAZY_ADD =>
      show (FullyOptimizedAlgo.solve
        (CFReachabilityAlgoFactory.optimizedConfig false) gr g b).1 = _
      rw [solve_eq _ (CFReachabilityAlgoFactory.incrementalConfig false) hlf gr g b]
  | FULLY_OPTIMIZED =>
      show (FullyOptimizedAlgo.solve
        (CFReachabilityAlgoFactory.optimizedConfig true) gr g b).1 = _
      rw [solve_eq _ (CFReachabilityAlgoFactory.incrementalConfig false) hlt gr g b]
  | AUTO =>
      unfold CFReachabilityAlgoFactory.solve CFReachabilityAlgoFactory.resolve
        CFReachabilityAlgoFactory.choose_algo_type
      by_cases hn : g.matrix_size < 500
      · rw [if_pos hn]
        show (IncrementalMatrixAlgo.solve
          (CFReachabilityAlgoFactory.incrementalConfig true) gr g).1 = _
        rw [inc_solve_cfg (CFReachabilityAlgoFactory.incrementalConfig true)
          (CFReachabilityAlgoFactory.incrementalConfig false) gr g]
      · rw [if_neg hn]
        show (FullyOptimizedAlgo.solve
          (CFReachabilityAlgoFactory.optimizedConfig true) gr g b).1 = _
        rw [solve_eq _ (CFReachabilityAlgoFactory.incrementalConfig false) hlt gr g b]

/-- Counterexample for C1: the base engine (`matrix_base_algo`, first
version) never consults the graph for the operands of a binary rule, so on
the grammar with the single double-terminal rule S to a b and the two-edge
graph it returns the empty relation, while the factory-dispatched
incremental engine returns {(0, 2)}. -/
theorem C1_base_engine_differs :
    (matrix_base_algo.solve grAB gAB).1 = (∅ : Mat) ∧
    CFReachabilityAlgoFactory.solve AlgoType.INCREMENTAL grAB gAB 2 = ({(0, 2)} : Mat) ∧
    (matrix_base_algo.solve grAB gAB).1 ≠
      CFReachabilityAlgoFactory.solve AlgoType.INCREMENTAL grAB gAB 2 := by
  refine ⟨by decide, by decide, by decide⟩

/-- C1 (amended): for every grammar and every graph, the engines dispatched
by the factory (incremental, trivial, lazy, full, and auto, which resolves
to one of them) return identical TRUE-pair sets for the start nonterminal,
for every value of the lazy parameter b.  (The base engine is not dispatched
by the factory and can differ, because its loop never consults the graph for
the terminal operands of binary rules.) -/
theorem C1_factory_engines_agree (t t2 : AlgoType) (gr : cnf_grammar)
    (g : label_decomposed_graph) (b b2 : ℚ) :
    CFReachabilityAlgoFactory.solve t gr g b =
      CFReachabilityAlgoFactory.solve t2 gr g b2 := by
  rw [factory_eq_incremental t gr g b, factory_eq_incremental t2 gr g b2]

end Cfra
